import Mathlib

/-!
# Distributed counter: replicated counter and membership registry

A shallow embedding of `distributed-counter/internal/counter/counter.go`,
`distributed-counter/internal/cluster/registry.go`,
`distributed-counter/internal/httpclient/client.go` and the cluster and
propagate handlers of `distributed-counter/internal/transport/http.go`,
followed by the country service of `country-api`.

Modelling conventions.

* Every method that reads or writes the protected fields of `Counter` or
  `Registry` holds the lock for its whole body (`mu.Lock(); defer
  mu.Unlock()`), so it is one atomic step: a function from the state before
  to the returned value and the state after.
* A Go `map[string]struct{}` used as a set is a `Finset String`; a Go
  `map[string]Peer` is an association list with unique keys (`AList`).
  Ranging over a Go map visits the entries in an unspecified order, so a
  loop over a map takes the visiting order as an argument.
* `Counter.value` is an `int64` that is incremented once per entry added to
  `seenIncrements`; it is modelled as an unbounded integer (a Go map cannot
  hold `2^63` entries, so the increment never wraps).
* Results of external collaborators (the `PeerRegistry` and `HTTPClient`
  interfaces, the back-off timer, the JSON decoder) are arguments. The id a
  method receives from `uuid.NewString` is an argument too; `uuidNewString`
  gives the form of such an id from the random bytes.
* `time.Now()` and `time.Since` read the clock; a method call holds the lock
  and is modelled at one instant `now`, an argument in nanoseconds.
* Concurrent callers are modelled by interleaving the steps of their calls
  under an arbitrary scheduler, with the mutex as part of the state.
* `log.Printf` calls are not modelled.
-/

namespace DistributedCounter

/-! ## counter.go -/

/-- Increment is `counter.Increment`: the unique id of the event and the id of
the node that generated it. -/
structure Increment where
  ID : String
  NodeID : String
deriving DecidableEq, Repr

/-- Counter holds the fields of `counter.Counter` that its methods read or
write: `value`, `seenIncrements` and `selfID`. The `registry` and `httpClient`
fields are interfaces; what they answer is passed to the method that calls
them. -/
structure Counter where
  value : Int
  seenIncrements : Finset String
  selfID : String
deriving DecidableEq

/-- NewCounter: value 0, an empty `seenIncrements` map, the given `selfID`. -/
def NewCounter (selfID : String) : Counter :=
  { value := 0, seenIncrements := ∅, selfID := selfID }

/-- ApplyIncrement: when `inc.ID` is a key of `seenIncrements` return `false`;
otherwise `value++`, record the id and return `true`. The pair is the returned
boolean and the state after the call. -/
def Counter.ApplyIncrement (c : Counter) (inc : Increment) : Bool × Counter :=
  if inc.ID ∈ c.seenIncrements then
    (false, c)
  else
    (true, { c with value := c.value + 1,
                    seenIncrements := insert inc.ID c.seenIncrements })

/-- Value returns the current counter value (a read under the read lock). -/
def Counter.Value (c : Counter) : Int := c.value

/-- Successive `ApplyIncrement` calls on one Counter, one per element of the
delivery sequence: the booleans returned, in call order, and the final state. -/
def Counter.applySeq (c : Counter) : List Increment → List Bool × Counter
  | [] => ([], c)
  | inc :: rest =>
    let r := c.ApplyIncrement inc
    let rs := Counter.applySeq r.2 rest
    (r.1 :: rs.1, rs.2)

/-- The state after a delivery sequence has been applied. -/
def Counter.applyAll (c : Counter) (incs : List Increment) : Counter :=
  (c.applySeq incs).2

/-- A call `httpClient.Post(ctx, url, body, nil)` made by the counter: the
URL and the increment passed as body. -/
structure PostCall where
  url : String
  body : Increment
deriving DecidableEq, Repr

/-- A goroutine started by `go c.propagate(addr, increment)`, with the
arguments it was started with. -/
structure Propagation where
  peerAddr : String
  inc : Increment
deriving DecidableEq, Repr

/-- Retry is `backoff.Retry(op, b)` of the back-off library: `op` is called;
a nil error ends the loop; after an error the back-off is asked for the next
interval, and the loop ends with that error when the answer is `Stop`,
otherwise it waits and calls `op` again. `waits` lists the intervals the
back-off hands out before it answers `Stop` (`MaxElapsedTime` is 10 seconds,
so there are finitely many), `attempt` numbers the calls, and `op attempt` is
the effect of the call together with `true` for a nil error. An error marked
permanent ends the loop like `Stop`: it is the case of a schedule that ends at
that call. The result is the effects of the calls made, in order, and whether
the last call succeeded. -/
def Retry {ε : Type} (op : Nat → ε × Bool) : Nat → List Nat → List ε × Bool
  | attempt, [] => ([(op attempt).1], (op attempt).2)
  | attempt, _ :: waits =>
    if (op attempt).2 then
      ([(op attempt).1], true)
    else
      let r := Retry op (attempt + 1) waits
      ((op attempt).1 :: r.1, r.2)

/-- The `propagate` method: `url := "http://" + peerAddr + "/counter/propagate"`,
and `op` posts `inc` to `url`, retried under the back-off. `client call attempt`
tells whether the `attempt`-th Post returns a nil error. The result is the
Post calls made, in order. -/
def Counter.propagate (_c : Counter) (peerAddr : String) (inc : Increment)
    (client : PostCall → Nat → Bool) (waits : List Nat) : List PostCall :=
  let url := "http://" ++ peerAddr ++ "/counter/propagate"
  let op := fun attempt =>
    (({ url := url, body := inc } : PostCall), client { url := url, body := inc } attempt)
  (Retry op 0 waits).1

/-- IncrementAndPropagate: build the increment from a fresh id (`newID` is
what `uuid.NewString()` returned) and `selfID`, apply it locally, then start
one `propagate` goroutine per address of `peerAddrs` (what
`registry.GetPeerAddrs()` returned). The result is the state after the call
and the goroutines started, in loop order. -/
def Counter.IncrementAndPropagate (c : Counter) (newID : String)
    (peerAddrs : List String) : Counter × List Propagation :=
  let increment : Increment := { ID := newID, NodeID := c.selfID }
  let applied := c.ApplyIncrement increment
  (applied.2, peerAddrs.map (fun addr => { peerAddr := addr, inc := increment }))

/-- All Post calls caused by one `IncrementAndPropagate`: those of every
goroutine it started, goroutine by goroutine (`client` and `waits` give, per
target address, the transport outcomes and the back-off schedule). -/
def Counter.outboundPosts (c : Counter) (newID : String) (peerAddrs : List String)
    (client : String → PostCall → Nat → Bool) (waits : String → List Nat) :
    List PostCall :=
  (c.IncrementAndPropagate newID peerAddrs).2.flatMap
    (fun p => c.propagate p.peerAddr p.inc (client p.peerAddr) (waits p.peerAddr))

/-! ## registry.go -/

/-- Peer is `cluster.Peer`; `LastSeen` is a clock reading in nanoseconds. -/
structure Peer where
  ID : String
  Addr : String
  LastSeen : Int
deriving DecidableEq, Repr

/-- Registry holds `selfID` and the `peers` map (`map[string]Peer`). -/
structure Registry where
  selfID : String
  peers : AList (fun _ : String => Peer)

/-- NewRegistry: the given `selfID` and an empty `peers` map. -/
def NewRegistry (selfID : String) : Registry :=
  { selfID := selfID, peers := ∅ }

/-- The `addPeer` method: `r.peers[p.ID] = p`. -/
def Registry.addPeer (r : Registry) (p : Peer) : Registry :=
  { r with peers := r.peers.insert p.ID p }

/-- GetPeerAddrs: range over `peers` and append `peer.Addr` for every key
other than `selfID`. `visit` is the order in which the range statement visits
the entries of the map. The result is the returned slice and the state after
the call. -/
def Registry.GetPeerAddrs (r : Registry) (visit : List (Σ _ : String, Peer)) :
    List String × Registry :=
  (visit.foldl
    (fun addrs e => if e.1 ≠ r.selfID then addrs ++ [e.2.Addr] else addrs) [], r)

/-- The constant `peerExpiryTimeout = 15 * time.Second`, in nanoseconds. -/
def peerExpiryTimeout : Int := 15 * 1000000000

/-- HandleJoinRequest: `r.peers[peerID] = Peer{peerID, peerID, time.Now()}`,
then range over the updated map and append every value to `peerList`. `visit`
is the order in which the range statement visits the updated map. The result
is the returned slice and the state after the call. -/
def Registry.HandleJoinRequest (r : Registry) (peerID : String) (now : Int)
    (visit : List (Σ _ : String, Peer)) : List Peer × Registry :=
  let joined : Registry :=
    { r with peers := (r.peers.insert peerID
        { ID := peerID, Addr := peerID, LastSeen := now }) }
  (visit.foldl (fun peerList e => peerList ++ [e.2]) [], joined)

/-- HandleHeartbeat: a known peer gets `LastSeen = time.Now()` and is stored
back; an unknown peer is added as `Peer{peerID, peerID, time.Now()}`. -/
def Registry.HandleHeartbeat (r : Registry) (peerID : String) (now : Int) :
    Registry :=
  match r.peers.lookup peerID with
  | some peer =>
    { r with peers := (r.peers.insert peerID { peer with LastSeen := now }) }
  | none =>
    { r with peers := (r.peers.insert peerID
        { ID := peerID, Addr := peerID, LastSeen := now }) }

/-- The `removeExpiredPeers` method: range over `peers`; skip the key `selfID`;
delete the key when `time.Since(peer.LastSeen) > peerExpiryTimeout`. `visit`
is the order in which the range statement visits the map (only the entry being
visited is ever deleted, so every entry is visited once). -/
def Registry.removeExpiredPeers (r : Registry) (now : Int)
    (visit : List (Σ _ : String, Peer)) : Registry :=
  { r with peers := (visit.foldl
      (fun peers e =>
        if e.1 = r.selfID then peers
        else if now - e.2.LastSeen > peerExpiryTimeout then peers.erase e.1
        else peers)
      r.peers) }

/-- The `syncPeers` method: for every peer of `newPeers`, in order, when
`peer.ID` is not a key of `peers`, store `Peer{peer.ID, peer.Addr, time.Now()}`
under it. -/
def Registry.syncPeers (r : Registry) (newPeers : List Peer) (now : Int) :
    Registry :=
  { r with peers := (newPeers.foldl
      (fun peers peer =>
        match peers.lookup peer.ID with
        | some _ => peers
        | none => peers.insert peer.ID
            { ID := peer.ID, Addr := peer.Addr, LastSeen := now })
      r.peers) }

/-- A join Post made by `announce`: the URL and the `id` of the body
`map[string]string{"id": r.selfID}`. -/
structure JoinPost where
  url : String
  id : String
deriving DecidableEq, Repr

/-- The `announce` method: for every address of `initialPeers`, in order, skip
it when it is `selfID`; otherwise Post the join message; on an error go on to
the next address, on success merge the decoded peer list with `syncPeers`.
`client k call` is the outcome of the `k`-th Post: `none` for an error, the
decoded response otherwise; `clock k` is the time of the merge that follows
it. The result is the Posts made, in order, and the state at the end. -/
def Registry.announce (client : Nat → JoinPost → Option (List Peer))
    (clock : Nat → Int) : List String → Nat → Registry → List JoinPost × Registry
  | [], _, r => ([], r)
  | peerAddr :: rest, k, r =>
    if peerAddr = r.selfID then
      Registry.announce client clock rest k r
    else
      let call : JoinPost :=
        { url := "http://" ++ peerAddr ++ "/cluster/join", id := r.selfID }
      match client k call with
      | none =>
        let out := Registry.announce client clock rest (k + 1) r
        (call :: out.1, out.2)
      | some responsePeers =>
        let out := Registry.announce client clock rest (k + 1)
          (r.syncPeers responsePeers (clock k))
        (call :: out.1, out.2)

/-- A mutation of the registry: the self-add of `Start`, `HandleJoinRequest`,
`HandleHeartbeat`, `syncPeers` and `removeExpiredPeers`, each with its
arguments and the time of the call. -/
inductive RegistryOp where
  | selfAdd (now : Int)
  | join (peerID : String) (now : Int)
  | heartbeat (peerID : String) (now : Int)
  | sync (newPeers : List Peer) (now : Int)
  | expire (now : Int)
deriving DecidableEq, Repr

/-- The state after one mutation. The ranges visit the map in the order of its
entries (the bindings left by `removeExpiredPeers` are the same for every
order, and the state after `HandleJoinRequest` does not depend on it). -/
def Registry.step (r : Registry) : RegistryOp → Registry
  | .selfAdd now => r.addPeer { ID := r.selfID, Addr := r.selfID, LastSeen := now }
  | .join peerID now => (r.HandleJoinRequest peerID now r.peers.entries).2
  | .heartbeat peerID now => r.HandleHeartbeat peerID now
  | .sync newPeers now => r.syncPeers newPeers now
  | .expire now => r.removeExpiredPeers now r.peers.entries

/-- The state after a sequence of mutations. -/
def Registry.run (r : Registry) (ops : List RegistryOp) : Registry :=
  ops.foldl Registry.step r

/-- A peer list is safe for `selfID` when none of its peers carries the
address `selfID` under another id. -/
def RegistryOp.AddrsAvoid (selfID : String) : RegistryOp → Prop
  | .sync newPeers _ => ∀ p ∈ newPeers, p.ID ≠ selfID → p.Addr ≠ selfID
  | _ => True

/-- Whether a mutation is safe for `selfID` can be computed. -/
instance RegistryOp.decAddrsAvoid (selfID : String) (op : RegistryOp) :
    Decidable (op.AddrsAvoid selfID) :=
  match op with
  | .selfAdd _ => isTrue trivial
  | .join _ _ => isTrue trivial
  | .heartbeat _ _ => isTrue trivial
  | .sync newPeers _ =>
    inferInstanceAs (Decidable (∀ p ∈ newPeers, p.ID ≠ selfID → p.Addr ≠ selfID))
  | .expire _ => isTrue trivial

/-- The registry of `self:8080` after its self-add and the merge of a join
response that lists the peer `x:9000` with the address `self:8080`. -/
def mergedForeignAddr : Registry :=
  (NewRegistry "self:8080").run
    [.selfAdd 0, .sync [{ ID := "x:9000", Addr := "self:8080", LastSeen := 0 }] 1]

/-- Mutations of the registry of `self:8080`: a self-add, a join, a merge of a
peer list that names `self:8080` itself, a heartbeat and a sweep that expires
the joined peer. -/
def smallClusterOps : List RegistryOp :=
  [.selfAdd 0, .join "p1:8081" 1,
   .sync [{ ID := "p2:8082", Addr := "p2:8082", LastSeen := 0 },
          { ID := "self:8080", Addr := "self:8080", LastSeen := 0 }] 2,
   .heartbeat "p3:8083" 3, .expire 15000000002]

/-- The registry of the expiry test at time `now`: `self:8080` (last seen at
`selfSeen`), `expired-peer:8081` last seen 20 seconds ago and
`active-peer:8082` last seen at `now`. -/
def expiryScenario (now selfSeen : Int) : Registry :=
  (((NewRegistry "self:8080").addPeer
      { ID := "self:8080", Addr := "self:8080", LastSeen := selfSeen }).addPeer
      { ID := "expired-peer:8081", Addr := "expired-peer:8081",
        LastSeen := now - 20 * 1000000000 }).addPeer
      { ID := "active-peer:8082", Addr := "active-peer:8082", LastSeen := now }

/-- The registry of the join test: `self:8080` after its self-add. -/
def selfOnlyRegistry : Registry :=
  (NewRegistry "self:8080").addPeer
    { ID := "self:8080", Addr := "self:8080", LastSeen := 0 }

/-- A visiting order of the map of `selfOnlyRegistry` after `new-peer:8081`
joined at time 1: self first. -/
def joinVisit : List (Σ _ : String, Peer) :=
  [⟨"self:8080", { ID := "self:8080", Addr := "self:8080", LastSeen := 0 }⟩,
   ⟨"new-peer:8081", { ID := "new-peer:8081", Addr := "new-peer:8081", LastSeen := 1 }⟩]

/-- The state after `HandleHeartbeat(peerID)` at each of the times `ts`, in
order. -/
def Registry.heartbeats (r : Registry) (peerID : String) (ts : List Int) :
    Registry :=
  ts.foldl (fun acc t => acc.HandleHeartbeat peerID t) r

/-! ## transport/http.go -/

/-- Server holds the registry and the counter the handlers call. -/
structure Server where
  registry : Registry
  counter : Counter

/-- The response of a handler: the status code and, when a payload is written
with `respondJSON`, the peer list that is encoded. -/
structure Response where
  status : Nat
  peerList : Option (List Peer)
deriving DecidableEq, Repr

/-- The constant `http.StatusOK`. -/
def StatusOK : Nat := 200

/-- The constant `http.StatusBadRequest`. -/
def StatusBadRequest : Nat := 400

/-- The value of `body["id"]` for a decoded `map[string]string`: the empty
string when the key is missing. -/
def bodyID (body : AList (fun _ : String => String)) : String :=
  (body.lookup "id").getD ""

/-- The `handleClusterJoin` handler. `decoded` is what
`json.NewDecoder(r.Body).Decode(&body)` produced: `none` for an error, the
map otherwise. An error or an empty `id` is answered with 400; otherwise
`HandleJoinRequest` is called and its list is written with status 200
(encoding a peer list cannot fail). -/
def Server.handleClusterJoin (s : Server)
    (decoded : Option (AList (fun _ : String => String))) (now : Int)
    (visit : List (Σ _ : String, Peer)) : Response × Server :=
  match decoded with
  | none => ({ status := StatusBadRequest, peerList := none }, s)
  | some body =>
    let peerID := bodyID body
    if peerID = "" then
      ({ status := StatusBadRequest, peerList := none }, s)
    else
      let joined := s.registry.HandleJoinRequest peerID now visit
      ({ status := StatusOK, peerList := some joined.1 },
        { s with registry := joined.2 })

/-- The `handleClusterHeartbeat` handler: an error or an empty `id` is
answered with 400; otherwise `HandleHeartbeat` is called and the status 200
is written. -/
def Server.handleClusterHeartbeat (s : Server)
    (decoded : Option (AList (fun _ : String => String))) (now : Int) :
    Response × Server :=
  match decoded with
  | none => ({ status := StatusBadRequest, peerList := none }, s)
  | some body =>
    let peerID := bodyID body
    if peerID = "" then
      ({ status := StatusBadRequest, peerList := none }, s)
    else
      ({ status := StatusOK, peerList := none },
        { s with registry := s.registry.HandleHeartbeat peerID now })

/-- A registry that knows itself and two peers, built with `addPeer`. -/
def threeNodeRegistry : Registry :=
  (((NewRegistry "self:8080").addPeer ⟨"self:8080", "self:8080", 0⟩).addPeer
    ⟨"p1:8081", "p1:8081", 5⟩).addPeer ⟨"p2:8082", "p2:8082", 7⟩

/-! ## httpclient/client.go -/

/-- The response `c.httpClient.Do(req)` hands back: the status code (never
negative) and the body. -/
structure HTTPResponse where
  StatusCode : Nat
  Body : String
deriving DecidableEq, Repr

/-- The outcome of `Client.Post`: the returned error (`none` for nil) and
whether `json.NewDecoder(resp.Body).Decode(responseBody)` was called. -/
structure PostResult where
  err : Option String
  decoded : Bool
deriving DecidableEq, Repr

/-- The `Post` method of the inter-node client. `marshal` is `none` for a nil
`body` and otherwise the result of `json.Marshal(body)`; `newRequest` is the
result of `http.NewRequestWithContext`; `transport` is the result of
`c.httpClient.Do(req)`; `responseBody` is `none` for a nil `responseBody` and
otherwise the result of decoding a body into it. -/
def Client.Post (marshal : Option (Except String String))
    (newRequest : Except String Unit) (transport : Except String HTTPResponse)
    (responseBody : Option (String → Except String Unit)) : PostResult :=
  match marshal with
  | some (.error e) =>
    { err := some ("failed to marshal request body: " ++ e), decoded := false }
  | _ =>
    match newRequest with
    | .error e =>
      { err := some ("failed to create request: " ++ e), decoded := false }
    | .ok _ =>
      match transport with
      | .error e => { err := some ("request failed: " ++ e), decoded := false }
      | .ok resp =>
        if resp.StatusCode ≠ StatusOK then
          { err := some ("received non-OK status code: " ++ toString resp.StatusCode),
            decoded := false }
        else
          match responseBody with
          | none => { err := none, decoded := false }
          | some decode =>
            match decode resp.Body with
            | .error e =>
              { err := some ("failed to decode response body: " ++ e), decoded := true }
            | .ok _ => { err := none, decoded := true }

/-- A peer list keeps identity and address together when every peer of a
merged list has `ID` equal to `Addr`. -/
def RegistryOp.IDsAreAddrs : RegistryOp → Prop
  | .sync newPeers _ => ∀ p ∈ newPeers, p.ID = p.Addr
  | _ => True

/-- Whether a mutation keeps identity and address together can be computed. -/
instance RegistryOp.decIDsAreAddrs (op : RegistryOp) : Decidable op.IDsAreAddrs :=
  match op with
  | .selfAdd _ => isTrue trivial
  | .join _ _ => isTrue trivial
  | .heartbeat _ _ => isTrue trivial
  | .sync newPeers _ =>
    inferInstanceAs (Decidable (∀ p ∈ newPeers, p.ID = p.Addr))
  | .expire _ => isTrue trivial

/-- The registry of `self:8080` after its self-add and the merge of a join
response that lists the node `n2:8081` under the address `10.0.0.2:8081`. -/
def mergedSplitIdentity : Registry :=
  (NewRegistry "self:8080").run
    [.selfAdd 0, .sync [{ ID := "n2:8081", Addr := "10.0.0.2:8081", LastSeen := 0 }] 1]

/-- A call that writes the registry: `addPeer` with any peer, or one of the
mutations of `RegistryOp`. -/
inductive RegistryCall where
  | addPeer (p : Peer)
  | mutate (op : RegistryOp)
deriving DecidableEq, Repr

/-- The state after one writing call. -/
def Registry.call (r : Registry) : RegistryCall → Registry
  | .addPeer p => r.addPeer p
  | .mutate op => r.step op

/-- The state after a sequence of writing calls. -/
def Registry.calls (r : Registry) (cs : List RegistryCall) : Registry :=
  cs.foldl Registry.call r

/-- Writing calls on the registry of `self:8080`: `addPeer` of a peer whose
address differs from its id, the self-add, a merge, a heartbeat and a sweep. -/
def mixedCalls : List RegistryCall :=
  [.addPeer { ID := "a:1", Addr := "10.0.0.1:1", LastSeen := 0 },
   .mutate (.selfAdd 0),
   .mutate (.sync [{ ID := "b:2", Addr := "b:2", LastSeen := 0 },
                   { ID := "a:1", Addr := "a:1", LastSeen := 0 }] 1),
   .mutate (.heartbeat "c:3" 2),
   .mutate (.expire 3)]

/-- The `handleCounterPropagate` handler. `decoded` is what
`json.NewDecoder(r.Body).Decode(&inc)` produced: `none` for an error, the
increment otherwise (a field missing from the body is the empty string). An
error is answered with 400; otherwise `ApplyIncrement` is called, its result
ignored, and the status 200 is written. -/
def Server.handleCounterPropagate (s : Server) (decoded : Option Increment) :
    Response × Server :=
  match decoded with
  | none => ({ status := StatusBadRequest, peerList := none }, s)
  | some inc =>
    ({ status := StatusOK, peerList := none },
      { s with counter := (s.counter.ApplyIncrement inc).2 })

/-- A server of `self:8080` whose Counter has applied the increment `inc-1`. -/
def seenOneServer : Server :=
  { registry := selfOnlyRegistry,
    counter := (NewCounter "self:8080").applyAll
      [{ ID := "inc-1", NodeID := "peer1:8081" }] }

end DistributedCounter

/-! # Country API: cache-first country lookup

A shallow embedding of `country-api/internal/service/service.go` with
`country-api/internal/cache/cache.go` and `country-api/internal/domain/country.go`.
A `*domain.Country` is modelled by its value (`none` for a nil pointer);
`strings.ToLower` and the upstream client are arguments. -/

namespace CountryAPI

/-- Country is `domain.Country`. -/
structure Country where
  Name : String
  Capital : String
  Currency : String
  Population : Int
deriving DecidableEq, Repr

/-- A value held by the cache (`interface{}`): a `*domain.Country`, or a value
of any other dynamic type (the nil interface included). -/
inductive CacheValue where
  | country (c : Option Country)
  | other (description : String)
deriving DecidableEq, Repr

/-- InMemoryCache holds the `items` map. -/
structure InMemoryCache where
  items : AList (fun _ : String => CacheValue)

/-- NewInMemoryCache: an empty `items` map. -/
def NewInMemoryCache : InMemoryCache := { items := ∅ }

/-- Get: `item, found := c.items[key]`; `none` stands for `found == false`. -/
def InMemoryCache.Get (c : InMemoryCache) (key : String) : Option CacheValue :=
  c.items.lookup key

/-- Set: `c.items[key] = value`. -/
def InMemoryCache.Set (c : InMemoryCache) (key : String) (value : CacheValue) :
    InMemoryCache :=
  { items := c.items.insert key value }

/-- A call made by `Search` on one of its collaborators. -/
inductive Call where
  | cacheGet (key : String)
  | clientGet (name : String)
  | cacheSet (key : String) (value : CacheValue)
deriving DecidableEq, Repr

/-- The service: its cache and its upstream client; `client name` is the pair
`(country, err)` that `GetCountryByName(ctx, name)` returns. -/
structure countryService where
  cache : InMemoryCache
  client : String → Option Country × Option String

/-- What a `Search` call returns and does: the returned country and error, the
cache afterwards, and the calls made on the cache and the client, in order. -/
structure SearchResult where
  country : Option Country
  err : Option String
  cache : InMemoryCache
  calls : List Call

/-- Search: look the lower-cased name up in the cache and return the cached
value when it is a `*domain.Country`; otherwise ask the client with the name
as given, return its error if any, and else store the country under the
lower-cased name and return it. `ToLower` is `strings.ToLower`. -/
def countryService.Search (s : countryService) (ToLower : String → String)
    (name : String) : SearchResult :=
  let cacheKey := ToLower name
  match s.cache.Get cacheKey with
  | some (.country country) =>
    { country := country, err := none, cache := s.cache,
      calls := [.cacheGet cacheKey] }
  | _ =>
    let fetched := s.client name
    match fetched.2 with
    | some err =>
      { country := none, err := some err, cache := s.cache,
        calls := [.cacheGet cacheKey, .clientGet name] }
    | none =>
      { country := fetched.1, err := none,
        cache := s.cache.Set cacheKey (.country fetched.1),
        calls := [.cacheGet cacheKey, .clientGet name,
                  .cacheSet cacheKey (.country fetched.1)] }

/-- The ASCII part of `strings.ToLower`, for examples. -/
def asciiToLower (s : String) : String :=
  String.mk (s.data.map Char.toLower)

/-- The country of the cache-hit test. -/
def india : Country :=
  { Name := "India", Capital := "", Currency := "", Population := 0 }

/-- A service whose cache holds `india` under the key `india`, with a client
that always fails. -/
def indiaCached : countryService :=
  { cache := NewInMemoryCache.Set "india" (.country (some india)),
    client := fun _ => (none, some "API is down") }

end CountryAPI

namespace DistributedCounter

/-! ## Concurrent callers of `ApplyIncrement`

Each call of `ApplyIncrement` runs in its own goroutine. A call is a sequence
of steps on the shared fields: `c.mu.Lock()`, the lookup in `seenIncrements`,
the load and the store of `c.value++`, the write to `seenIncrements`, and the
deferred `c.mu.Unlock()` on return. A scheduler picks, at every step, the call
that moves; a call waiting for the mutex does not move. -/

/-- Where one call of `ApplyIncrement` stands: before `Lock`; holding the
mutex before the map lookup; after a lookup that did not find the id; after
the load of `value++` (with the value read); after the store of `value++`;
after the map write (about to unlock and return true); after a lookup that
found the id (about to unlock and return false); returned. -/
inductive PC where
  | start
  | locked
  | fresh
  | loaded (tmp : Int)
  | stored
  | inserted
  | dup
  | done (ret : Bool)
deriving DecidableEq, Repr

/-- A call is between `Lock` and `Unlock`. -/
def PC.critical : PC → Bool
  | .start => false
  | .done _ => false
  | _ => true

/-- A call has written its id to `seenIncrements`. -/
def PC.wrote : PC → Bool
  | .inserted => true
  | .done true => true
  | _ => false

/-- The steps a call still has to take. -/
def PC.stepsLeft : PC → Nat
  | .start => 6
  | .locked => 5
  | .fresh => 4
  | .loaded _ => 3
  | .stored => 2
  | .inserted => 1
  | .dup => 1
  | .done _ => 0

/-- The shared Counter fields, the call that holds `mu` (if any) and the
position of every call, by index. -/
structure ConcState where
  value : Int
  seen : Finset String
  lock : Option Nat
  pc : Nat → PC

/-- The state in which no call has started, on the Counter `c`. -/
def ConcState.init (c : Counter) : ConcState :=
  { value := c.value, seen := c.seenIncrements, lock := none, pc := fun _ => PC.start }

/-- One step of the call number `tid` of `incs`. `Lock` is taken only when the
mutex is free, otherwise the call waits (the state is unchanged); a call that
has returned, or an index that stands for no call, does nothing. -/
def ConcState.step (incs : List Increment) (s : ConcState) (tid : Nat) :
    ConcState :=
  match incs[tid]? with
  | none => s
  | some inc =>
    match s.pc tid with
    | .start =>
      match s.lock with
      | none => { s with lock := some tid, pc := Function.update s.pc tid PC.locked }
      | some _ => s
    | .locked =>
      if inc.ID ∈ s.seen then { s with pc := Function.update s.pc tid PC.dup }
      else { s with pc := Function.update s.pc tid PC.fresh }
    | .fresh => { s with pc := Function.update s.pc tid (PC.loaded s.value) }
    | .loaded tmp =>
      { s with value := tmp + 1, pc := Function.update s.pc tid PC.stored }
    | .stored =>
      { s with seen := insert inc.ID s.seen,
               pc := Function.update s.pc tid PC.inserted }
    | .inserted =>
      { s with lock := none, pc := Function.update s.pc tid (PC.done true) }
    | .dup =>
      { s with lock := none, pc := Function.update s.pc tid (PC.done false) }
    | .done _ => s

/-- The state after the calls moved in the order of `schedule`. -/
def ConcState.run (incs : List Increment) (s : ConcState) (schedule : List Nat) :
    ConcState :=
  schedule.foldl (ConcState.step incs) s

/-- Every call of `incs` has returned. -/
def ConcState.allReturned (incs : List Increment) (s : ConcState) : Prop :=
  ∀ i, i < incs.length → ∃ ret, s.pc i = PC.done ret

/-- What `Value()` reads: it takes the read lock, so it reads `value` only
while no call of `ApplyIncrement` holds the mutex. -/
def ConcState.observe (s : ConcState) : Option Int :=
  match s.lock with
  | none => some s.value
  | some _ => none

/-- The facts that hold in every state of concurrent calls with pairwise
distinct ids on a fresh Counter: indices beyond the calls never start; a call
is between `Lock` and `Unlock` exactly when it holds the mutex; `seen` holds
exactly the ids of the calls that wrote; no call found its id present; a value
read for `value++` is still the value; `value` is the size of `seen`, plus one
between the store and the map write. -/
structure ConcInv (incs : List Increment) (s : ConcState) : Prop where
  outside : ∀ i, incs.length ≤ i → s.pc i = PC.start
  holder : ∀ i, (s.pc i).critical = true → s.lock = some i
  held : ∀ i, s.lock = some i → (s.pc i).critical = true
  seenIff : ∀ id, id ∈ s.seen ↔
    ∃ i inc, incs[i]? = some inc ∧ inc.ID = id ∧ (s.pc i).wrote = true
  accepted : ∀ i, s.pc i ≠ PC.dup ∧ s.pc i ≠ PC.done false
  loadedValue : ∀ i tmp, s.pc i = PC.loaded tmp → tmp = s.value
  valueFree : (∀ i, s.pc i ≠ PC.stored) → s.value = (s.seen.card : Int)
  valueStored : ∀ i, s.pc i = PC.stored → s.value = (s.seen.card : Int) + 1

/-- The sum of the steps the calls `0 .. n-1` still have to take. -/
def ConcState.stepsLeft (s : ConcState) (n : Nat) : Nat :=
  ((List.range n).map (fun i => (s.pc i).stepsLeft)).sum

/-- Three increments with distinct ids. -/
def threeIncrements : List Increment :=
  [{ ID := "a", NodeID := "n1" }, { ID := "b", NodeID := "n2" },
   { ID := "c", NodeID := "n3" }]

/-- A schedule of the three calls in which calls 0 and 2 ask for the mutex
while call 1 holds it, and the calls take turns afterwards. -/
def interleavedSchedule : List Nat :=
  [1, 0, 1, 2, 1, 0, 1, 1, 2, 1, 2, 0, 2, 2, 0, 2, 2, 2, 0, 0, 0, 0, 0, 0]

/-! ## Generated increment ids -/

/-- The lower-case hexadecimal digit of `n mod 16`. -/
def hexDigit (n : Nat) : Char :=
  "0123456789abcdef".data.getD (n % 16) default

/-- The two hexadecimal digits of a byte, high digit first. -/
def hexByte (b : Nat) : List Char :=
  [hexDigit (b / 16), hexDigit b]

/-- The canonical text form of the 16 bytes of a UUID: 8-4-4-4-12 hexadecimal
digits separated by `-`. -/
def encodeHex (u : Fin 16 → Nat) : List Char :=
  hexByte (u 0) ++ hexByte (u 1) ++ hexByte (u 2) ++ hexByte (u 3) ++ "-".data ++
  hexByte (u 4) ++ hexByte (u 5) ++ "-".data ++
  hexByte (u 6) ++ hexByte (u 7) ++ "-".data ++
  hexByte (u 8) ++ hexByte (u 9) ++ "-".data ++
  hexByte (u 10) ++ hexByte (u 11) ++ hexByte (u 12) ++ hexByte (u 13) ++
  hexByte (u 14) ++ hexByte (u 15)

/-- Modelled from the spec: `uuid.NewString`, which `IncrementAndPropagate`
calls for the id of a new increment, belongs to the dependency
`github.com/google/uuid` and is not under `src/`. The spec describes the id as
a globally-unique token generated at origin, a universally-unique identifier.
The model is the random (version 4) UUID in its canonical text form: the 16
bytes read from the random source (`random`, each taken mod 256), with byte 6
set to `(b & 0x0f) | 0x40` and byte 8 to `(b & 0x3f) | 0x80`, printed by
`encodeHex`. -/
def uuidNewString (random : Fin 16 → Nat) : String :=
  String.mk (encodeHex (fun i =>
    if i = 6 then random i % 16 + 64
    else if i = 8 then random i % 64 + 128
    else random i % 256))

/-- Random bytes `0x00, 0x11, .., 0xff` for examples. -/
def sampleRandom : Fin 16 → Nat := fun i => 17 * i.val

/-! ## Helper lemmas for the counter -/

theorem applyIncrement_seen (c : Counter) (inc : Increment)
    (h : inc.ID ∈ c.seenIncrements) : c.ApplyIncrement inc = (false, c) := by
  simp [Counter.ApplyIncrement, h]

theorem applyIncrement_fresh (c : Counter) (inc : Increment)
    (h : inc.ID ∉ c.seenIncrements) :
    c.ApplyIncrement inc =
      (true, { c with value := c.value + 1,
                      seenIncrements := insert inc.ID c.seenIncrements }) := by
  simp [Counter.ApplyIncrement, h]

theorem applyAll_nil (c : Counter) : c.applyAll [] = c := rfl

theorem applyAll_cons (c : Counter) (inc : Increment) (rest : List Increment) :
    c.applyAll (inc :: rest) = (c.ApplyIncrement inc).2.applyAll rest := rfl

theorem applyAll_append (c : Counter) (xs ys : List Increment) :
    c.applyAll (xs ++ ys) = (c.applyAll xs).applyAll ys := by
  induction xs generalizing c with
  | nil => rfl
  | cons x xs ih => simp [applyAll_cons, ih]

/-- One step keeps `value = |seenIncrements|`. -/
theorem applyIncrement_card (c : Counter) (inc : Increment)
    (h : c.value = (c.seenIncrements.card : Int)) :
    (c.ApplyIncrement inc).2.value =
      ((c.ApplyIncrement inc).2.seenIncrements.card : Int) := by
  by_cases hs : inc.ID ∈ c.seenIncrements
  · rw [applyIncrement_seen c inc hs]; exact h
  · rw [applyIncrement_fresh c inc hs]
    simp [Finset.card_insert_of_not_mem hs, h]

theorem applyAll_card (c : Counter) (incs : List Increment)
    (h : c.value = (c.seenIncrements.card : Int)) :
    (c.applyAll incs).value = ((c.applyAll incs).seenIncrements.card : Int) := by
  induction incs generalizing c with
  | nil => exact h
  | cons x xs ih =>
    rw [applyAll_cons]
    exact ih _ (applyIncrement_card c x h)

/-- Every state reached from `NewCounter` has `value = |seenIncrements|`. -/
theorem reachable_value_eq_card (selfID : String) (incs : List Increment) :
    ((NewCounter selfID).applyAll incs).value =
      (((NewCounter selfID).applyAll incs).seenIncrements.card : Int) :=
  applyAll_card (NewCounter selfID) incs (by simp [NewCounter])

/-! ## Claims about the counter -/

/-- C1: in every Counter state reached from `NewCounter` by a finite sequence
of `ApplyIncrement` calls (any increments, ids may repeat), `value` equals the
number of ids in `seenIncrements`. -/
theorem C1_value_eq_card_seen (selfID : String) (incs : List Increment) :
    ((NewCounter selfID).applyAll incs).value =
      (((NewCounter selfID).applyAll incs).seenIncrements.card : Int) :=
  reachable_value_eq_card selfID incs

/-- C2: `ApplyIncrement(inc)` returns true exactly when `inc.ID` is not in
`seenIncrements`; on true the value grows by one and the seen set becomes the
old set with `inc.ID` added (nothing else changes); on false the state is
unchanged. -/
theorem C2_applyIncrement_spec (c : Counter) (inc : Increment) :
    ((c.ApplyIncrement inc).1 = true ↔ inc.ID ∉ c.seenIncrements) ∧
    ((c.ApplyIncrement inc).1 = true →
        (c.ApplyIncrement inc).2.value = c.value + 1 ∧
        (c.ApplyIncrement inc).2.seenIncrements = insert inc.ID c.seenIncrements ∧
        (∀ id, id ∈ (c.ApplyIncrement inc).2.seenIncrements ↔
                id = inc.ID ∨ id ∈ c.seenIncrements) ∧
        (c.ApplyIncrement inc).2.selfID = c.selfID) ∧
    ((c.ApplyIncrement inc).1 = false → (c.ApplyIncrement inc).2 = c) := by
  by_cases hs : inc.ID ∈ c.seenIncrements
  · rw [applyIncrement_seen c inc hs]; simp [hs]
  · rw [applyIncrement_fresh c inc hs]; simp [hs]

/-- C3: applying the same increment twice in a row leaves the Counter in
exactly the state reached after the first application, and the second call
returns false. -/
theorem C3_apply_twice (c : Counter) (inc : Increment) :
    ((c.ApplyIncrement inc).2.ApplyIncrement inc).2 = (c.ApplyIncrement inc).2 ∧
    ((c.ApplyIncrement inc).2.ApplyIncrement inc).1 = false := by
  have hmem : inc.ID ∈ (c.ApplyIncrement inc).2.seenIncrements := by
    by_cases hs : inc.ID ∈ c.seenIncrements
    · rw [applyIncrement_seen c inc hs]; exact hs
    · rw [applyIncrement_fresh c inc hs]; simp
  rw [applyIncrement_seen _ inc hmem]
  exact ⟨rfl, rfl⟩

/-- The returned booleans count the growth of `value`. -/
theorem applySeq_value (c : Counter) (incs : List Increment) :
    (c.applySeq incs).2.value = c.value + ((c.applySeq incs).1.count true : Int) := by
  induction incs generalizing c with
  | nil => simp [Counter.applySeq]
  | cons x xs ih =>
    simp only [Counter.applySeq]
    rw [ih]
    by_cases hs : x.ID ∈ c.seenIncrements
    · rw [applyIncrement_seen c x hs]; simp
    · rw [applyIncrement_fresh c x hs]; simp; ring

/-- The seen set after a delivery sequence is the old set together with the
ids of the sequence. -/
theorem applyAll_seen (c : Counter) (incs : List Increment) :
    (c.applyAll incs).seenIncrements =
      c.seenIncrements ∪ (incs.map Increment.ID).toFinset := by
  induction incs generalizing c with
  | nil => simp [applyAll_nil]
  | cons x xs ih =>
    rw [applyAll_cons, ih]
    by_cases hs : x.ID ∈ c.seenIncrements
    · rw [applyIncrement_seen c x hs]
      ext a; simp only [List.map_cons, List.toFinset_cons, Finset.mem_union,
        Finset.mem_insert]
      constructor
      · rintro (h | h)
        · exact Or.inl h
        · exact Or.inr (Or.inr h)
      · rintro (h | h | h)
        · exact Or.inl h
        · exact Or.inl (h ▸ hs)
        · exact Or.inr h
    · rw [applyIncrement_fresh c x hs]
      ext a; simp only [List.map_cons, List.toFinset_cons, Finset.mem_union,
        Finset.mem_insert]
      tauto

theorem applyAll_selfID (c : Counter) (incs : List Increment) :
    (c.applyAll incs).selfID = c.selfID := by
  induction incs generalizing c with
  | nil => rfl
  | cons x xs ih =>
    rw [applyAll_cons, ih]
    by_cases hs : x.ID ∈ c.seenIncrements
    · rw [applyIncrement_seen c x hs]
    · rw [applyIncrement_fresh c x hs]

theorem applyIncrement_value_le (c : Counter) (inc : Increment) :
    c.value ≤ (c.ApplyIncrement inc).2.value := by
  by_cases hs : inc.ID ∈ c.seenIncrements
  · rw [applyIncrement_seen c inc hs]
  · rw [applyIncrement_fresh c inc hs]; simp

/-- C4: for every finite sequence of increments applied to a fresh Counter,
`Value()` equals the number of calls that returned true, which equals the
number of distinct ids in the sequence; with pairwise distinct ids it is the
length of the sequence. -/
theorem C4_value_counts_distinct_ids (selfID : String) (incs : List Increment) :
    ((NewCounter selfID).applySeq incs).2.Value =
        ((((NewCounter selfID).applySeq incs).1.count true : Nat) : Int) ∧
    ((((NewCounter selfID).applySeq incs).1.count true : Nat) : Int) =
        (((incs.map Increment.ID).toFinset.card : Nat) : Int) ∧
    ((incs.map Increment.ID).Nodup →
        ((NewCounter selfID).applySeq incs).2.Value = (incs.length : Int)) := by
  have hv := applySeq_value (NewCounter selfID) incs
  have hc := reachable_value_eq_card selfID incs
  have hs := applyAll_seen (NewCounter selfID) incs
  simp only [Counter.applyAll] at hc hs
  have h0 : (NewCounter selfID).value = 0 := rfl
  have he : (NewCounter selfID).seenIncrements = ∅ := rfl
  rw [h0, zero_add] at hv
  rw [he, Finset.empty_union] at hs
  refine ⟨hv, ?_, ?_⟩
  · rw [← hv, hc, hs]
  · intro hnd
    show ((NewCounter selfID).applySeq incs).2.value = _
    rw [hc, hs, List.toFinset_card_of_nodup hnd, List.length_map]

/-- C5: `Value()` is non-negative in every state reached from `NewCounter`,
and one more `ApplyIncrement` never lowers it. -/
theorem C5_value_nonneg_monotone (selfID : String) (incs : List Increment)
    (inc : Increment) :
    0 ≤ ((NewCounter selfID).applyAll incs).Value ∧
    ((NewCounter selfID).applyAll incs).Value ≤
      (((NewCounter selfID).applyAll incs).ApplyIncrement inc).2.Value ∧
    0 ≤ (((NewCounter selfID).applyAll incs).ApplyIncrement inc).2.Value := by
  have h0 : 0 ≤ ((NewCounter selfID).applyAll incs).Value := by
    show 0 ≤ ((NewCounter selfID).applyAll incs).value
    rw [reachable_value_eq_card selfID incs]; exact Int.natCast_nonneg _
  have h1 := applyIncrement_value_le ((NewCounter selfID).applyAll incs) inc
  exact ⟨h0, h1, le_trans h0 h1⟩

/-- C6: the final state does not depend on delivery order or duplication. Two
delivery sequences with the same set of ids, each applied to a fresh Counter,
give the same value and the same seen set; and two increments with distinct
unseen ids raise the value by exactly 2 in either order, reaching the same
state. -/
theorem C6_order_and_duplication_irrelevant (s1 s2 : String)
    (l1 l2 : List Increment) (c : Counter) (a b : Increment)
    (hids : ∀ id, id ∈ l1.map Increment.ID ↔ id ∈ l2.map Increment.ID)
    (hab : a.ID ≠ b.ID) (ha : a.ID ∉ c.seenIncrements)
    (hb : b.ID ∉ c.seenIncrements) :
    ((NewCounter s1).applyAll l1).Value = ((NewCounter s2).applyAll l2).Value ∧
    ((NewCounter s1).applyAll l1).seenIncrements =
      ((NewCounter s2).applyAll l2).seenIncrements ∧
    (c.applyAll [a, b]).Value = c.Value + 2 ∧
    (c.applyAll [b, a]).Value = c.Value + 2 ∧
    c.applyAll [a, b] = c.applyAll [b, a] := by
  have hset : (l1.map Increment.ID).toFinset = (l2.map Increment.ID).toFinset := by
    ext id; simp only [List.mem_toFinset]; exact hids id
  have hseen : ((NewCounter s1).applyAll l1).seenIncrements =
      ((NewCounter s2).applyAll l2).seenIncrements := by
    rw [applyAll_seen, applyAll_seen, hset]; rfl
  have hba : b.ID ∉ insert a.ID c.seenIncrements := by
    simp only [Finset.mem_insert, not_or]; exact ⟨fun h => hab h.symm, hb⟩
  have hab2 : a.ID ∉ insert b.ID c.seenIncrements := by
    simp only [Finset.mem_insert, not_or]; exact ⟨hab, ha⟩
  have e1 : c.applyAll [a, b] =
      { c with value := c.value + 1 + 1,
               seenIncrements := insert b.ID (insert a.ID c.seenIncrements) } := by
    rw [applyAll_cons, applyIncrement_fresh c a ha, applyAll_cons,
      applyIncrement_fresh _ b hba]; rfl
  have e2 : c.applyAll [b, a] =
      { c with value := c.value + 1 + 1,
               seenIncrements := insert a.ID (insert b.ID c.seenIncrements) } := by
    rw [applyAll_cons, applyIncrement_fresh c b hb, applyAll_cons,
      applyIncrement_fresh _ a hab2]; rfl
  refine ⟨?_, hseen, ?_, ?_, ?_⟩
  · show ((NewCounter s1).applyAll l1).value = ((NewCounter s2).applyAll l2).value
    rw [reachable_value_eq_card, reachable_value_eq_card, hseen]
  · rw [e1]; show c.value + 1 + 1 = c.value + 2; ring
  · rw [e2]; show c.value + 1 + 1 = c.value + 2; ring
  · rw [e1, e2, Finset.Insert.comm]

/-- C6 at a concrete input: deliveries `a, b, a` and `b, a` (the second `a`
relayed by another node), and the two orders of `a`, `b` on a fresh Counter. -/
theorem C6_order_and_duplication_irrelevant_witness :
    ((NewCounter "n1").applyAll
        [⟨"a", "n1"⟩, ⟨"b", "n2"⟩, ⟨"a", "n1"⟩]).Value =
      ((NewCounter "n2").applyAll [⟨"b", "n2"⟩, ⟨"a", "n3"⟩]).Value ∧
    ((NewCounter "n1").applyAll
        [⟨"a", "n1"⟩, ⟨"b", "n2"⟩, ⟨"a", "n1"⟩]).seenIncrements =
      ((NewCounter "n2").applyAll [⟨"b", "n2"⟩, ⟨"a", "n3"⟩]).seenIncrements ∧
    ((NewCounter "n1").applyAll [⟨"a", "n1"⟩, ⟨"b", "n2"⟩]).Value =
      (NewCounter "n1").Value + 2 ∧
    ((NewCounter "n1").applyAll [⟨"b", "n2"⟩, ⟨"a", "n1"⟩]).Value =
      (NewCounter "n1").Value + 2 ∧
    (NewCounter "n1").applyAll [⟨"a", "n1"⟩, ⟨"b", "n2"⟩] =
      (NewCounter "n1").applyAll [⟨"b", "n2"⟩, ⟨"a", "n1"⟩] :=
  C6_order_and_duplication_irrelevant "n1" "n2"
    [⟨"a", "n1"⟩, ⟨"b", "n2"⟩, ⟨"a", "n1"⟩] [⟨"b", "n2"⟩, ⟨"a", "n3"⟩]
    (NewCounter "n1") ⟨"a", "n1"⟩ ⟨"b", "n2"⟩
    (by intro id; simp; tauto) (by decide) (by decide) (by decide)

/-- C7: deduplication depends only on the increment id. Two increments with
the same `ID` (whatever their `NodeID`) get the same returned boolean and the
same resulting state from any Counter state, and applying one after the other
counts once: the second call returns false and changes nothing, and after
both calls an id that was unseen has been counted exactly once (value plus
one, the id recorded) while an id that was seen has not been counted at all;
the order of the two makes no difference. -/
theorem C7_dedup_by_id_only (c : Counter) (i1 i2 : Increment)
    (hid : i1.ID = i2.ID) :
    c.ApplyIncrement i1 = c.ApplyIncrement i2 ∧
    ((c.ApplyIncrement i1).2.ApplyIncrement i2).1 = false ∧
    ((c.ApplyIncrement i1).2.ApplyIncrement i2).2 = (c.ApplyIncrement i1).2 ∧
    ((c.ApplyIncrement i1).2.ApplyIncrement i2).2.Value ≤ c.Value + 1 ∧
    ((c.ApplyIncrement i1).1 = true ↔ i1.ID ∉ c.seenIncrements) ∧
    (i1.ID ∉ c.seenIncrements →
      ((c.ApplyIncrement i1).2.ApplyIncrement i2).2.Value = c.Value + 1 ∧
      ((c.ApplyIncrement i1).2.ApplyIncrement i2).2.seenIncrements =
        insert i1.ID c.seenIncrements ∧
      ((c.ApplyIncrement i1).2.ApplyIncrement i2).2.selfID = c.selfID) ∧
    (i1.ID ∈ c.seenIncrements →
      ((c.ApplyIncrement i1).2.ApplyIncrement i2).2 = c) ∧
    ((c.ApplyIncrement i2).2.ApplyIncrement i1).2 =
      ((c.ApplyIncrement i1).2.ApplyIncrement i2).2 := by
  have hsame : c.ApplyIncrement i1 = c.ApplyIncrement i2 := by
    simp only [Counter.ApplyIncrement, hid]
  have hmem : i2.ID ∈ (c.ApplyIncrement i1).2.seenIncrements := by
    rw [← hid]
    by_cases hs : i1.ID ∈ c.seenIncrements
    · rw [applyIncrement_seen c i1 hs]; exact hs
    · rw [applyIncrement_fresh c i1 hs]; simp
  have hmem2 : i1.ID ∈ (c.ApplyIncrement i2).2.seenIncrements := by
    rw [← hsame, hid]; exact hmem
  rw [applyIncrement_seen _ i2 hmem, applyIncrement_seen _ i1 hmem2]
  refine ⟨hsame, rfl, rfl, ?_, ?_, ?_, ?_, ?_⟩
  · show (c.ApplyIncrement i1).2.value ≤ c.value + 1
    by_cases hs : i1.ID ∈ c.seenIncrements
    · rw [applyIncrement_seen c i1 hs]; simp
    · rw [applyIncrement_fresh c i1 hs]
  · by_cases hs : i1.ID ∈ c.seenIncrements
    · rw [applyIncrement_seen c i1 hs]; simp [hs]
    · rw [applyIncrement_fresh c i1 hs]; simp [hs]
  · intro hs
    rw [applyIncrement_fresh c i1 hs]
    exact ⟨rfl, rfl, rfl⟩
  · intro hs
    rw [applyIncrement_seen c i1 hs]
  · show (c.ApplyIncrement i2).2 = (c.ApplyIncrement i1).2
    rw [hsame]

/-- C7 at a concrete input: id `A` generated by `n1` and the same id carried
with `NodeID = n2`, on a Counter that has already seen `B`: the value goes
from 1 to 2 and stays there. -/
theorem C7_dedup_by_id_only_witness :
    ((NewCounter "n1").ApplyIncrement ⟨"B", "n3"⟩).2.Value = 1 ∧
    (((NewCounter "n1").ApplyIncrement ⟨"B", "n3"⟩).2.ApplyIncrement ⟨"A", "n1"⟩ =
      ((NewCounter "n1").ApplyIncrement ⟨"B", "n3"⟩).2.ApplyIncrement ⟨"A", "n2"⟩) ∧
    ((((NewCounter "n1").ApplyIncrement ⟨"B", "n3"⟩).2.ApplyIncrement
        ⟨"A", "n1"⟩).2.ApplyIncrement ⟨"A", "n2"⟩).1 = false ∧
    ((((NewCounter "n1").ApplyIncrement ⟨"B", "n3"⟩).2.ApplyIncrement
        ⟨"A", "n1"⟩).2.ApplyIncrement ⟨"A", "n2"⟩).2.Value =
      ((NewCounter "n1").ApplyIncrement ⟨"B", "n3"⟩).2.Value + 1 ∧
    ((((NewCounter "n1").ApplyIncrement ⟨"B", "n3"⟩).2.ApplyIncrement
        ⟨"A", "n1"⟩).2.ApplyIncrement ⟨"A", "n2"⟩).2.seenIncrements =
      insert "A" ((NewCounter "n1").ApplyIncrement ⟨"B", "n3"⟩).2.seenIncrements ∧
    ((((NewCounter "n1").ApplyIncrement ⟨"B", "n3"⟩).2.ApplyIncrement
        ⟨"A", "n2"⟩).2.ApplyIncrement ⟨"A", "n1"⟩).2 =
      ((((NewCounter "n1").ApplyIncrement ⟨"B", "n3"⟩).2.ApplyIncrement
        ⟨"A", "n1"⟩).2.ApplyIncrement ⟨"A", "n2"⟩).2 :=
  ⟨by decide,
    (C7_dedup_by_id_only ((NewCounter "n1").ApplyIncrement ⟨"B", "n3"⟩).2
      ⟨"A", "n1"⟩ ⟨"A", "n2"⟩ rfl).1,
    (C7_dedup_by_id_only ((NewCounter "n1").ApplyIncrement ⟨"B", "n3"⟩).2
      ⟨"A", "n1"⟩ ⟨"A", "n2"⟩ rfl).2.1,
    ((C7_dedup_by_id_only ((NewCounter "n1").ApplyIncrement ⟨"B", "n3"⟩).2
      ⟨"A", "n1"⟩ ⟨"A", "n2"⟩ rfl).2.2.2.2.2.1 (by decide)).1,
    ((C7_dedup_by_id_only ((NewCounter "n1").ApplyIncrement ⟨"B", "n3"⟩).2
      ⟨"A", "n1"⟩ ⟨"A", "n2"⟩ rfl).2.2.2.2.2.1 (by decide)).2.1,
    (C7_dedup_by_id_only ((NewCounter "n1").ApplyIncrement ⟨"B", "n3"⟩).2
      ⟨"A", "n1"⟩ ⟨"A", "n2"⟩ rfl).2.2.2.2.2.2.2⟩

/-- Every effect recorded by `Retry` is the effect of some `op` call, and at
least one call is made. -/
theorem retry_effects {ε : Type} (op : Nat → ε × Bool) (waits : List Nat)
    (attempt : Nat) :
    (Retry op attempt waits).1 ≠ [] ∧
    ∀ e ∈ (Retry op attempt waits).1, ∃ k, e = (op k).1 := by
  induction waits generalizing attempt with
  | nil =>
    refine ⟨by simp [Retry], ?_⟩
    intro e he
    simp only [Retry, List.mem_singleton] at he
    exact ⟨attempt, he⟩
  | cons w ws ih =>
    by_cases hok : (op attempt).2 = true
    · refine ⟨by simp [Retry, hok], ?_⟩
      intro e he
      simp only [Retry, hok, if_true, List.mem_singleton] at he
      exact ⟨attempt, he⟩
    · refine ⟨by simp [Retry, hok], ?_⟩
      intro e he
      simp only [Retry, hok, Bool.false_eq_true, if_false, List.mem_cons] at he
      rcases he with he | he
      · exact ⟨attempt, he⟩
      · exact (ih (attempt + 1)).2 e he

/-- The Post calls of `propagate`: at least one, all to the peer's propagate
URL with the increment as body. -/
theorem propagate_calls (c : Counter) (peerAddr : String) (inc : Increment)
    (client : PostCall → Nat → Bool) (waits : List Nat) :
    c.propagate peerAddr inc client waits ≠ [] ∧
    ∀ call ∈ c.propagate peerAddr inc client waits,
      call.url = "http://" ++ peerAddr ++ "/counter/propagate" ∧ call.body = inc := by
  refine ⟨(retry_effects _ waits 0).1, ?_⟩
  intro call hcall
  obtain ⟨k, hk⟩ := (retry_effects _ waits 0).2 call hcall
  rw [hk]
  exact ⟨rfl, rfl⟩

/-- C8: when the id generated by `IncrementAndPropagate` is not yet in
`seenIncrements`, `Value()` after the call is the previous value plus one; a
fresh Counter whose registry reports no peers has `Value() == 1` after one
call, starts no propagation and issues no Post. -/
theorem C8_local_increment (c : Counter) (newID : String)
    (peerAddrs : List String) (selfID freshID : String)
    (client : String → PostCall → Nat → Bool) (waits : String → List Nat)
    (hfresh : newID ∉ c.seenIncrements) :
    (c.IncrementAndPropagate newID peerAddrs).1.Value = c.Value + 1 ∧
    ((NewCounter selfID).IncrementAndPropagate freshID []).1.Value = 1 ∧
    ((NewCounter selfID).IncrementAndPropagate freshID []).2 = [] ∧
    (NewCounter selfID).outboundPosts freshID [] client waits = [] := by
  refine ⟨?_, ?_, rfl, rfl⟩
  · show (c.ApplyIncrement ⟨newID, c.selfID⟩).2.value = c.value + 1
    rw [applyIncrement_fresh c ⟨newID, c.selfID⟩ hfresh]
  · show ((NewCounter selfID).ApplyIncrement ⟨freshID, selfID⟩).2.value = 1
    rw [applyIncrement_fresh (NewCounter selfID) ⟨freshID, selfID⟩
      (by simp [NewCounter])]
    rfl

/-- C8 at a concrete input: a Counter that has seen `inc1` and has one peer,
with the generated id `inc2`; and a fresh Counter without peers. -/
theorem C8_local_increment_witness :
    ((((NewCounter "node1").ApplyIncrement ⟨"inc1", "node2"⟩).2.IncrementAndPropagate
        "inc2" ["peer1:8081"]).1.Value =
      ((NewCounter "node1").ApplyIncrement ⟨"inc1", "node2"⟩).2.Value + 1) ∧
    ((NewCounter "node1").IncrementAndPropagate "inc1" []).1.Value = 1 ∧
    ((NewCounter "node1").IncrementAndPropagate "inc1" []).2 = [] ∧
    (NewCounter "node1").outboundPosts "inc1" []
      (fun _ _ _ => false) (fun _ => [500, 750]) = [] :=
  C8_local_increment ((NewCounter "node1").ApplyIncrement ⟨"inc1", "node2"⟩).2
    "inc2" ["peer1:8081"] "node1" "inc1" (fun _ _ _ => false)
    (fun _ => [500, 750]) (by decide)

theorem encodeHex_length (u : Fin 16 → Nat) : (encodeHex u).length = 36 := by
  simp [encodeHex, hexByte]

/-- A generated id has 36 characters. -/
theorem uuidNewString_length (random : Fin 16 → Nat) :
    (uuidNewString random).length = 36 := by
  unfold uuidNewString
  rw [String.length]
  exact encodeHex_length _

/-- A generated id is not the empty string. -/
theorem uuidNewString_ne_empty (random : Fin 16 → Nat) :
    uuidNewString random ≠ "" := by
  intro h
  have hlen := uuidNewString_length random
  rw [h] at hlen
  simp at hlen

/-- C9: `IncrementAndPropagate` applies the generated increment locally and
starts exactly one propagation per address of the list returned by
`registry.GetPeerAddrs()`, in list order; every Post of such a propagation
goes to `"http://" + addr + "/counter/propagate"` with that same increment as
body, whose `NodeID` is the Counter's `selfID` and whose `ID` is the generated
id, a non-empty string of 36 characters whatever the random bytes. Each
propagation posts at least once. -/
theorem C9_one_propagation_per_peer (c : Counter) (random : Fin 16 → Nat)
    (peerAddrs : List String) (client : PostCall → Nat → Bool)
    (waits : List Nat) :
    (c.IncrementAndPropagate (uuidNewString random) peerAddrs).1 =
      (c.ApplyIncrement ⟨uuidNewString random, c.selfID⟩).2 ∧
    (c.IncrementAndPropagate (uuidNewString random) peerAddrs).2.map
      Propagation.peerAddr = peerAddrs ∧
    (c.IncrementAndPropagate (uuidNewString random) peerAddrs).2.length =
      peerAddrs.length ∧
    ∀ p ∈ (c.IncrementAndPropagate (uuidNewString random) peerAddrs).2,
      p.inc = ⟨uuidNewString random, c.selfID⟩ ∧ p.inc.ID ≠ "" ∧
      p.inc.ID.length = 36 ∧ p.inc.NodeID = c.selfID ∧
      c.propagate p.peerAddr p.inc client waits ≠ [] ∧
      ∀ call ∈ c.propagate p.peerAddr p.inc client waits,
        call.url = "http://" ++ p.peerAddr ++ "/counter/propagate" ∧
        call.body = p.inc := by
  refine ⟨rfl, ?_, ?_, ?_⟩
  · simp [Counter.IncrementAndPropagate, Function.comp_def]
  · simp [Counter.IncrementAndPropagate]
  · intro p hp
    have hinc : p.inc = ⟨uuidNewString random, c.selfID⟩ := by
      simp only [Counter.IncrementAndPropagate, List.mem_map] at hp
      obtain ⟨addr, _, rfl⟩ := hp
      rfl
    have hcalls := propagate_calls c p.peerAddr p.inc client waits
    refine ⟨hinc, ?_, ?_, ?_, hcalls.1, hcalls.2⟩
    · rw [hinc]; exact uuidNewString_ne_empty random
    · rw [hinc]; exact uuidNewString_length random
    · rw [hinc]

/-- C9 at a concrete input: the Counter of node `node1:8080` with the single
peer `peer1:8081`, the random bytes `0x00, 0x11, .., 0xff`, a transport that
fails once and a back-off that allows two retries. -/
theorem C9_one_propagation_per_peer_witness :
    uuidNewString sampleRandom = "00112233-4455-4677-8899-aabbccddeeff" ∧
    ((NewCounter "node1:8080").IncrementAndPropagate (uuidNewString sampleRandom)
        ["peer1:8081"]).1 =
      ((NewCounter "node1:8080").ApplyIncrement
        ⟨uuidNewString sampleRandom, (NewCounter "node1:8080").selfID⟩).2 ∧
    ((NewCounter "node1:8080").IncrementAndPropagate (uuidNewString sampleRandom)
        ["peer1:8081"]).2.map Propagation.peerAddr = ["peer1:8081"] ∧
    ((NewCounter "node1:8080").IncrementAndPropagate (uuidNewString sampleRandom)
        ["peer1:8081"]).2.length = ["peer1:8081"].length ∧
    ∀ p ∈ ((NewCounter "node1:8080").IncrementAndPropagate
        (uuidNewString sampleRandom) ["peer1:8081"]).2,
      p.inc = ⟨uuidNewString sampleRandom, (NewCounter "node1:8080").selfID⟩ ∧
      p.inc.ID ≠ "" ∧ p.inc.ID.length = 36 ∧
      p.inc.NodeID = (NewCounter "node1:8080").selfID ∧
      (NewCounter "node1:8080").propagate p.peerAddr p.inc
        (fun _ attempt => decide (1 ≤ attempt)) [500, 750] ≠ [] ∧
      ∀ call ∈ (NewCounter "node1:8080").propagate p.peerAddr p.inc
          (fun _ attempt => decide (1 ≤ attempt)) [500, 750],
        call.url = "http://" ++ p.peerAddr ++ "/counter/propagate" ∧
        call.body = p.inc :=
  ⟨by decide,
    C9_one_propagation_per_peer (NewCounter "node1:8080") sampleRandom
      ["peer1:8081"] (fun _ attempt => decide (1 ≤ attempt)) [500, 750]⟩

/-! ## Helper lemmas for the registry -/

/-- The loop of `GetPeerAddrs` appends, in visiting order, the address of
every visited entry whose key is not `selfID`. -/
theorem getPeerAddrs_loop (selfID : String) (visit : List (Σ _ : String, Peer))
    (acc : List String) :
    visit.foldl
        (fun addrs e => if e.1 ≠ selfID then addrs ++ [e.2.Addr] else addrs) acc =
      acc ++ (visit.filter (fun e => decide (e.1 ≠ selfID))).map
        (fun e => e.2.Addr) := by
  induction visit generalizing acc with
  | nil => simp
  | cons e es ih =>
    rw [List.foldl_cons, ih]
    by_cases h : e.1 = selfID
    · simp [h]
    · simp [h]

/-! ## Claims about the registry -/

/-- C10: whatever order the range statement visits the map in, `GetPeerAddrs`
returns a permutation of the `Addr` fields of the entries of `peers` whose key
differs from `selfID`, one element per such entry, and the Registry state is
unchanged. -/
theorem C10_getPeerAddrs (r : Registry) (visit : List (Σ _ : String, Peer))
    (hvisit : visit.Perm r.peers.entries) :
    (r.GetPeerAddrs visit).1.Perm
      ((r.peers.entries.filter (fun e => decide (e.1 ≠ r.selfID))).map
        (fun e => e.2.Addr)) ∧
    (r.GetPeerAddrs visit).1.length =
      (r.peers.keys.filter (fun id => decide (id ≠ r.selfID))).length ∧
    (∀ a, a ∈ (r.GetPeerAddrs visit).1 ↔
      ∃ id p, r.peers.lookup id = some p ∧ id ≠ r.selfID ∧ p.Addr = a) ∧
    (r.GetPeerAddrs visit).2 = r := by
  have hperm : (r.GetPeerAddrs visit).1.Perm
      ((r.peers.entries.filter (fun e => decide (e.1 ≠ r.selfID))).map
        (fun e => e.2.Addr)) := by
    show (visit.foldl _ []).Perm _
    rw [getPeerAddrs_loop, List.nil_append]
    exact (hvisit.filter _).map _
  refine ⟨hperm, ?_, ?_, rfl⟩
  · rw [hperm.length_eq, List.length_map, AList.keys, List.keys, List.filter_map,
      List.length_map]
    rfl
  · intro a
    rw [hperm.mem_iff]
    simp only [List.mem_map, List.mem_filter, decide_eq_true_eq]
    constructor
    · rintro ⟨e, ⟨he, hne⟩, rfl⟩
      refine ⟨e.1, e.2, ?_, hne, rfl⟩
      exact AList.mem_lookup_iff.mpr he
    · rintro ⟨id, p, hl, hne, rfl⟩
      exact ⟨⟨id, p⟩, ⟨AList.mem_lookup_iff.mp hl, hne⟩, rfl⟩

/-- C10 at a concrete input: the registry of `self:8080` knowing `p1:8081`
and `p2:8082`, with the map visited in the order `p1`, `self`, `p2`. -/
theorem C10_getPeerAddrs_witness :
    (threeNodeRegistry.GetPeerAddrs
        [⟨"p1:8081", ⟨"p1:8081", "p1:8081", 5⟩⟩,
         ⟨"self:8080", ⟨"self:8080", "self:8080", 0⟩⟩,
         ⟨"p2:8082", ⟨"p2:8082", "p2:8082", 7⟩⟩]).1.Perm
      ((threeNodeRegistry.peers.entries.filter
          (fun e => decide (e.1 ≠ threeNodeRegistry.selfID))).map
        (fun e => e.2.Addr)) ∧
    (threeNodeRegistry.GetPeerAddrs
        [⟨"p1:8081", ⟨"p1:8081", "p1:8081", 5⟩⟩,
         ⟨"self:8080", ⟨"self:8080", "self:8080", 0⟩⟩,
         ⟨"p2:8082", ⟨"p2:8082", "p2:8082", 7⟩⟩]).1.length =
      (threeNodeRegistry.peers.keys.filter
        (fun id => decide (id ≠ threeNodeRegistry.selfID))).length ∧
    (∀ a, a ∈ (threeNodeRegistry.GetPeerAddrs
        [⟨"p1:8081", ⟨"p1:8081", "p1:8081", 5⟩⟩,
         ⟨"self:8080", ⟨"self:8080", "self:8080", 0⟩⟩,
         ⟨"p2:8082", ⟨"p2:8082", "p2:8082", 7⟩⟩]).1 ↔
      ∃ id p, threeNodeRegistry.peers.lookup id = some p ∧
        id ≠ threeNodeRegistry.selfID ∧ p.Addr = a) ∧
    (threeNodeRegistry.GetPeerAddrs
        [⟨"p1:8081", ⟨"p1:8081", "p1:8081", 5⟩⟩,
         ⟨"self:8080", ⟨"self:8080", "self:8080", 0⟩⟩,
         ⟨"p2:8082", ⟨"p2:8082", "p2:8082", 7⟩⟩]).2 = threeNodeRegistry :=
  C10_getPeerAddrs threeNodeRegistry
    [⟨"p1:8081", ⟨"p1:8081", "p1:8081", 5⟩⟩,
     ⟨"self:8080", ⟨"self:8080", "self:8080", 0⟩⟩,
     ⟨"p2:8082", ⟨"p2:8082", "p2:8082", 7⟩⟩]
    (by decide)

/-! ## Helper lemmas for the registry mutations -/

/-- The sweep loop, entry by entry: a key is gone exactly when the loop
visited an entry with that key, other than `selfID`, older than the timeout. -/
theorem expire_loop_lookup (selfID : String) (now : Int)
    (visit : List (Σ _ : String, Peer)) (m : AList (fun _ : String => Peer))
    (id : String) :
    (visit.foldl
        (fun peers e =>
          if e.1 = selfID then peers
          else if now - e.2.LastSeen > peerExpiryTimeout then peers.erase e.1
          else peers) m).lookup id =
      if ∃ e ∈ visit, e.1 = id ∧ e.1 ≠ selfID ∧
          now - e.2.LastSeen > peerExpiryTimeout then none
      else m.lookup id := by
  induction visit generalizing m with
  | nil => simp
  | cons e es ih =>
    rw [List.foldl_cons, ih]
    by_cases hes : ∃ x ∈ es, x.1 = id ∧ x.1 ≠ selfID ∧
        now - x.2.LastSeen > peerExpiryTimeout
    · have hall : ∃ x ∈ e :: es, x.1 = id ∧ x.1 ≠ selfID ∧
          now - x.2.LastSeen > peerExpiryTimeout := by
        obtain ⟨x, hx, h⟩ := hes
        exact ⟨x, List.mem_cons_of_mem _ hx, h⟩
      rw [if_pos hes, if_pos hall]
    · rw [if_neg hes]
      by_cases hs : e.1 = selfID
      · have hall : ¬ ∃ x ∈ e :: es, x.1 = id ∧ x.1 ≠ selfID ∧
            now - x.2.LastSeen > peerExpiryTimeout := by
          rintro ⟨x, hx, h⟩
          rcases List.mem_cons.mp hx with rfl | hx
          · exact h.2.1 hs
          · exact hes ⟨x, hx, h⟩
        rw [if_neg hall, if_pos hs]
      · by_cases hexp : now - e.2.LastSeen > peerExpiryTimeout
        · rw [if_neg hs, if_pos hexp]
          by_cases hid : e.1 = id
          · have hall : ∃ x ∈ e :: es, x.1 = id ∧ x.1 ≠ selfID ∧
                now - x.2.LastSeen > peerExpiryTimeout :=
              ⟨e, List.mem_cons_self _ _, hid, hs, hexp⟩
            rw [if_pos hall, ← hid, AList.lookup_erase]
          · have hall : ¬ ∃ x ∈ e :: es, x.1 = id ∧ x.1 ≠ selfID ∧
                now - x.2.LastSeen > peerExpiryTimeout := by
              rintro ⟨x, hx, h⟩
              rcases List.mem_cons.mp hx with rfl | hx
              · exact hid h.1
              · exact hes ⟨x, hx, h⟩
            rw [if_neg hall, AList.lookup_erase_ne (fun h => hid h.symm)]
        · have hall : ¬ ∃ x ∈ e :: es, x.1 = id ∧ x.1 ≠ selfID ∧
              now - x.2.LastSeen > peerExpiryTimeout := by
            rintro ⟨x, hx, h⟩
            rcases List.mem_cons.mp hx with rfl | hx
            · exact hexp h.2.2
            · exact hes ⟨x, hx, h⟩
          rw [if_neg hall, if_neg hs, if_neg hexp]

/-- After a sweep that visited every entry, a key is bound exactly when it was
bound before and is `selfID` or not older than the timeout; the binding is the
old one. -/
theorem removeExpiredPeers_lookup (r : Registry) (now : Int)
    (visit : List (Σ _ : String, Peer)) (hvisit : visit.Perm r.peers.entries)
    (id : String) :
    (r.removeExpiredPeers now visit).peers.lookup id =
      (r.peers.lookup id).filter
        (fun p => decide (id = r.selfID ∨ now - p.LastSeen ≤ peerExpiryTimeout)) := by
  show (visit.foldl _ r.peers).lookup id = _
  rw [expire_loop_lookup]
  cases hl : r.peers.lookup id with
  | none =>
    simp
  | some p =>
    have hmem : (⟨id, p⟩ : Σ _ : String, Peer) ∈ visit :=
      hvisit.mem_iff.mpr (AList.mem_lookup_iff.mp hl)
    by_cases hkeep : id = r.selfID ∨ now - p.LastSeen ≤ peerExpiryTimeout
    · have hno : ¬ ∃ e ∈ visit, e.1 = id ∧ e.1 ≠ r.selfID ∧
          now - e.2.LastSeen > peerExpiryTimeout := by
        rintro ⟨e, he, h1, h2, h3⟩
        have he2 : r.peers.lookup e.1 = some e.2 :=
          AList.mem_lookup_iff.mpr (hvisit.mem_iff.mp he)
        obtain ⟨e1, e2⟩ := e
        simp only at h1 h2 h3 he2
        subst h1
        rw [hl] at he2
        cases he2
        rcases hkeep with h | h
        · exact h2 h
        · exact absurd h3 (not_lt.mpr h)
      rw [if_neg hno]
      simp only [Option.filter, decide_eq_true_eq, if_pos hkeep]
    · have hyes : ∃ e ∈ visit, e.1 = id ∧ e.1 ≠ r.selfID ∧
          now - e.2.LastSeen > peerExpiryTimeout := by
        refine ⟨⟨id, p⟩, hmem, rfl, ?_, ?_⟩
        · exact fun h => hkeep (Or.inl h)
        · exact not_le.mp (fun h => hkeep (Or.inr h))
      rw [if_pos hyes]
      simp only [Option.filter, decide_eq_true_eq, if_neg hkeep]

/-- A binding that survives the sweep loop is a binding of the map before. -/
theorem removeExpiredPeers_sub (r : Registry) (now : Int)
    (visit : List (Σ _ : String, Peer)) (id : String) (p : Peer)
    (h : (r.removeExpiredPeers now visit).peers.lookup id = some p) :
    r.peers.lookup id = some p := by
  have h2 : (visit.foldl _ r.peers).lookup id = some p := h
  rw [expire_loop_lookup] at h2
  split at h2
  · cases h2
  · exact h2

/-- The sweep loop never removes the key `selfID`. -/
theorem removeExpiredPeers_self (r : Registry) (now : Int)
    (visit : List (Σ _ : String, Peer)) :
    (r.removeExpiredPeers now visit).peers.lookup r.selfID =
      r.peers.lookup r.selfID := by
  show (visit.foldl _ r.peers).lookup r.selfID = _
  rw [expire_loop_lookup, if_neg]
  rintro ⟨e, _, h1, h2, _⟩
  exact h2 h1

/-- The merge loop, peer by peer: an old binding is kept, and an unbound key
gets the first peer of the list with that id, stamped with `now`. -/
theorem sync_loop_lookup (now : Int) (newPeers : List Peer)
    (m : AList (fun _ : String => Peer)) (id : String) :
    (newPeers.foldl
        (fun peers peer =>
          match peers.lookup peer.ID with
          | some _ => peers
          | none => peers.insert peer.ID
              { ID := peer.ID, Addr := peer.Addr, LastSeen := now }) m).lookup id =
      match m.lookup id with
      | some p => some p
      | none => (newPeers.find? (fun q => decide (q.ID = id))).map
          (fun q => { ID := q.ID, Addr := q.Addr, LastSeen := now }) := by
  induction newPeers generalizing m with
  | nil => cases h : m.lookup id <;> simp [h]
  | cons q qs ih =>
    rw [List.foldl_cons, ih]
    cases hq : m.lookup q.ID with
    | some v =>
      simp only
      cases hid : m.lookup id with
      | some p => rfl
      | none =>
        have hne : ¬ q.ID = id := by
          intro h; rw [h, hid] at hq; cases hq
        simp [List.find?_cons, hne]
    | none =>
      simp only
      by_cases hne : q.ID = id
      · subst hne
        rw [AList.lookup_insert, hq]
        simp [List.find?_cons]
      · rw [AList.lookup_insert_ne (fun h => hne h.symm)]
        cases hid : m.lookup id with
        | some p => rfl
        | none => simp [List.find?_cons, hne]

/-- What `syncPeers` leaves under a key. -/
theorem syncPeers_lookup (r : Registry) (newPeers : List Peer) (now : Int)
    (id : String) :
    (r.syncPeers newPeers now).peers.lookup id =
      match r.peers.lookup id with
      | some p => some p
      | none => (newPeers.find? (fun q => decide (q.ID = id))).map
          (fun q => { ID := q.ID, Addr := q.Addr, LastSeen := now }) :=
  sync_loop_lookup now newPeers r.peers id

/-- What `HandleHeartbeat` leaves under a key. -/
theorem handleHeartbeat_lookup (r : Registry) (peerID : String) (now : Int)
    (id : String) :
    (r.HandleHeartbeat peerID now).peers.lookup id =
      if id = peerID then
        some (match r.peers.lookup peerID with
          | some peer => { peer with LastSeen := now }
          | none => { ID := peerID, Addr := peerID, LastSeen := now })
      else r.peers.lookup id := by
  unfold Registry.HandleHeartbeat
  by_cases hid : id = peerID
  · subst hid
    rw [if_pos rfl]
    cases h : r.peers.lookup id <;> simp only [AList.lookup_insert]
  · rw [if_neg hid]
    cases h : r.peers.lookup peerID <;> simp only [AList.lookup_insert_ne hid]

/-- What `HandleJoinRequest` leaves under a key. -/
theorem handleJoinRequest_lookup (r : Registry) (peerID : String) (now : Int)
    (visit : List (Σ _ : String, Peer)) (id : String) :
    (r.HandleJoinRequest peerID now visit).2.peers.lookup id =
      if id = peerID then some { ID := peerID, Addr := peerID, LastSeen := now }
      else r.peers.lookup id := by
  show (r.peers.insert peerID _).lookup id = _
  by_cases hid : id = peerID
  · subst hid; rw [if_pos rfl, AList.lookup_insert]
  · rw [if_neg hid, AList.lookup_insert_ne hid]

theorem step_selfID (r : Registry) (op : RegistryOp) :
    (r.step op).selfID = r.selfID := by
  cases op <;> try rfl
  case heartbeat peerID now =>
    show (r.HandleHeartbeat peerID now).selfID = r.selfID
    unfold Registry.HandleHeartbeat
    cases r.peers.lookup peerID <;> rfl

theorem run_nil (r : Registry) : r.run [] = r := rfl

theorem run_cons (r : Registry) (op : RegistryOp) (ops : List RegistryOp) :
    r.run (op :: ops) = (r.step op).run ops := rfl

theorem run_selfID (r : Registry) (ops : List RegistryOp) :
    (r.run ops).selfID = r.selfID := by
  induction ops generalizing r with
  | nil => rfl
  | cons op ops ih => rw [run_cons, ih, step_selfID]

/-- Where a binding after one mutation comes from: it keeps the `ID` and
`Addr` of the binding the key had before, or it was created for a peer id
with `ID = Addr =` the key, or it copies a peer of a merged list. -/
theorem step_lookup_cases (r : Registry) (op : RegistryOp) (id : String)
    (p : Peer) (h : (r.step op).peers.lookup id = some p) :
    (∃ q, r.peers.lookup id = some q ∧ p.ID = q.ID ∧ p.Addr = q.Addr) ∨
    (p.ID = id ∧ p.Addr = id) ∨
    (∃ newPeers now, op = RegistryOp.sync newPeers now ∧
      ∃ q ∈ newPeers, q.ID = id ∧ p.ID = q.ID ∧ p.Addr = q.Addr) := by
  cases op with
  | selfAdd now =>
    have h2 : (r.peers.insert r.selfID
        { ID := r.selfID, Addr := r.selfID, LastSeen := now }).lookup id = some p := h
    by_cases hid : id = r.selfID
    · subst hid
      rw [AList.lookup_insert] at h2
      cases h2
      exact Or.inr (Or.inl ⟨rfl, rfl⟩)
    · rw [AList.lookup_insert_ne hid] at h2
      exact Or.inl ⟨p, h2, rfl, rfl⟩
  | join peerID now =>
    have h2 := h
    simp only [Registry.step] at h2
    rw [handleJoinRequest_lookup] at h2
    by_cases hid : id = peerID
    · rw [if_pos hid] at h2
      cases h2
      exact Or.inr (Or.inl ⟨hid.symm, hid.symm⟩)
    · rw [if_neg hid] at h2
      exact Or.inl ⟨p, h2, rfl, rfl⟩
  | heartbeat peerID now =>
    have h2 := h
    simp only [Registry.step] at h2
    rw [handleHeartbeat_lookup] at h2
    by_cases hid : id = peerID
    · rw [if_pos hid] at h2
      subst hid
      cases hl : r.peers.lookup id with
      | some q =>
        rw [hl] at h2
        cases h2
        exact Or.inl ⟨q, rfl, rfl, rfl⟩
      | none =>
        rw [hl] at h2
        cases h2
        exact Or.inr (Or.inl ⟨rfl, rfl⟩)
    · rw [if_neg hid] at h2
      exact Or.inl ⟨p, h2, rfl, rfl⟩
  | sync newPeers now =>
    have h2 := h
    simp only [Registry.step] at h2
    rw [syncPeers_lookup] at h2
    cases hl : r.peers.lookup id with
    | some q =>
      rw [hl] at h2
      cases h2
      exact Or.inl ⟨_, rfl, rfl, rfl⟩
    | none =>
      rw [hl] at h2
      simp only [Option.map_eq_some'] at h2
      obtain ⟨q, hq, rfl⟩ := h2
      have hmem := List.mem_of_find?_eq_some hq
      have hqid : q.ID = id := by
        have := List.find?_some hq
        simpa using this
      exact Or.inr (Or.inr ⟨newPeers, now, rfl, q, hmem, hqid, rfl, rfl⟩)
  | expire now =>
    have h2 := removeExpiredPeers_sub r now r.peers.entries id p h
    exact Or.inl ⟨p, h2, rfl, rfl⟩

theorem getPeerAddrs_mem (r : Registry) (visit : List (Σ _ : String, Peer))
    (hvisit : visit.Perm r.peers.entries) (a : String) :
    a ∈ (r.GetPeerAddrs visit).1 ↔
      ∃ id p, r.peers.lookup id = some p ∧ id ≠ r.selfID ∧ p.Addr = a := by
  show a ∈ visit.foldl _ [] ↔ _
  rw [getPeerAddrs_loop, List.nil_append]
  simp only [List.mem_map, List.mem_filter, decide_eq_true_eq]
  constructor
  · rintro ⟨e, ⟨he, hne⟩, rfl⟩
    exact ⟨e.1, e.2, AList.mem_lookup_iff.mpr (hvisit.mem_iff.mp he), hne, rfl⟩
  · rintro ⟨id, p, hl, hne, rfl⟩
    exact ⟨⟨id, p⟩, ⟨hvisit.mem_iff.mpr (AList.mem_lookup_iff.mp hl), hne⟩, rfl⟩

/-- One mutation keeps "no binding under another key carries the address
`selfID`", when a merged list is safe for `selfID`. -/
theorem step_addr_ne_self (r : Registry) (op : RegistryOp)
    (hop : op.AddrsAvoid r.selfID)
    (hinv : ∀ id p, r.peers.lookup id = some p → id ≠ r.selfID →
      p.Addr ≠ r.selfID) :
    ∀ id p, (r.step op).peers.lookup id = some p → id ≠ (r.step op).selfID →
      p.Addr ≠ (r.step op).selfID := by
  intro id p h hne
  rw [step_selfID] at hne ⊢
  rcases step_lookup_cases r op id p h with ⟨q, hq, _, hA⟩ | ⟨_, hA⟩ |
    ⟨newPeers, now, rfl, q, hq, hqid, _, hA⟩
  · rw [hA]; exact hinv id q hq hne
  · rw [hA]; exact hne
  · rw [hA]
    exact hop q hq (by rw [hqid]; exact hne)

theorem run_addr_ne_self (r : Registry) (ops : List RegistryOp)
    (hops : ∀ op ∈ ops, op.AddrsAvoid r.selfID)
    (hinv : ∀ id p, r.peers.lookup id = some p → id ≠ r.selfID →
      p.Addr ≠ r.selfID) :
    ∀ id p, (r.run ops).peers.lookup id = some p → id ≠ (r.run ops).selfID →
      p.Addr ≠ (r.run ops).selfID := by
  induction ops generalizing r with
  | nil => exact hinv
  | cons op ops ih =>
    rw [run_cons]
    apply ih
    · intro o ho
      rw [step_selfID]
      exact hops o (List.mem_cons_of_mem _ ho)
    · exact step_addr_ne_self r op (hops op (List.mem_cons_self _ _)) hinv

/-- One mutation keeps the key `selfID` bound. -/
theorem step_keeps_self (r : Registry) (op : RegistryOp)
    (hself : r.selfID ∈ r.peers) : (r.step op).selfID ∈ (r.step op).peers := by
  rw [step_selfID, ← AList.lookup_isSome]
  rw [← AList.lookup_isSome] at hself
  cases op with
  | selfAdd now =>
    show ((r.peers.insert r.selfID _).lookup r.selfID).isSome = true
    rw [AList.lookup_insert]; rfl
  | join peerID now =>
    simp only [Registry.step]
    rw [handleJoinRequest_lookup]
    split
    · rfl
    · exact hself
  | heartbeat peerID now =>
    simp only [Registry.step]
    rw [handleHeartbeat_lookup]
    split
    · rfl
    · exact hself
  | sync newPeers now =>
    simp only [Registry.step]
    rw [syncPeers_lookup]
    cases hl : r.peers.lookup r.selfID with
    | some q => rfl
    | none => rw [hl] at hself; cases hself
  | expire now =>
    simp only [Registry.step]
    rw [removeExpiredPeers_self]
    exact hself

theorem run_keeps_self (r : Registry) (ops : List RegistryOp)
    (hself : r.selfID ∈ r.peers) : (r.run ops).selfID ∈ (r.run ops).peers := by
  induction ops generalizing r with
  | nil => exact hself
  | cons op ops ih =>
    rw [run_cons]
    exact ih _ (step_keeps_self r op hself)

/-- One mutation keeps "every key is the `ID` of its peer". -/
theorem step_keys_are_ids (r : Registry) (op : RegistryOp)
    (hinv : ∀ id q, r.peers.lookup id = some q → q.ID = id) :
    ∀ id q, (r.step op).peers.lookup id = some q → q.ID = id := by
  intro id p h
  rcases step_lookup_cases r op id p h with ⟨q, hq, hI, _⟩ | ⟨hI, _⟩ |
    ⟨newPeers, now, _, q, _, hqid, hI, _⟩
  · rw [hI]; exact hinv id q hq
  · exact hI
  · rw [hI]; exact hqid

theorem run_keys_are_ids (r : Registry) (ops : List RegistryOp)
    (hinv : ∀ id q, r.peers.lookup id = some q → q.ID = id) :
    ∀ id q, (r.run ops).peers.lookup id = some q → q.ID = id := by
  induction ops generalizing r with
  | nil => exact hinv
  | cons op ops ih =>
    rw [run_cons]
    exact ih _ (step_keys_are_ids r op hinv)

/-! ## Claims about the registry mutations -/

/-- C11, as stated, fails: after the self-add and the merge of a peer list
that names the peer `x:9000` with the address `self:8080`, `GetPeerAddrs`
returns `self:8080`. -/
theorem C11_counterexample :
    ¬ ∀ a ∈ (mergedForeignAddr.GetPeerAddrs mergedForeignAddr.peers.entries).1,
        a ≠ mergedForeignAddr.selfID := by
  decide

/-- C11, amended: in every state reached from `NewRegistry` by the self-add,
`HandleJoinRequest`, `HandleHeartbeat`, `removeExpiredPeers` and `syncPeers`
with peer lists in which no peer carries the address `selfID` under another
id, no element of `GetPeerAddrs()` equals `selfID`. -/
theorem C11_peerAddrs_exclude_self (selfID : String) (ops : List RegistryOp)
    (visit : List (Σ _ : String, Peer))
    (hops : ∀ op ∈ ops, op.AddrsAvoid selfID)
    (hvisit : visit.Perm ((NewRegistry selfID).run ops).peers.entries) :
    ∀ a ∈ (((NewRegistry selfID).run ops).GetPeerAddrs visit).1, a ≠ selfID := by
  intro a ha
  obtain ⟨id, p, hl, hne, rfl⟩ := (getPeerAddrs_mem _ visit hvisit a).mp ha
  have h := run_addr_ne_self (NewRegistry selfID) ops hops
    (by intro id p h; simp [NewRegistry, AList.lookup_empty] at h) id p hl hne
  rw [run_selfID] at h
  exact h

/-- C11 (amended) at a concrete input: self-add, a join, a merge of a list
naming self, a heartbeat and a sweep; the map visited in reverse order. -/
theorem C11_peerAddrs_exclude_self_witness :
    (∀ op ∈ smallClusterOps, op.AddrsAvoid "self:8080") ∧
    "p3:8083" ∈ (((NewRegistry "self:8080").run smallClusterOps).GetPeerAddrs
        ((NewRegistry "self:8080").run smallClusterOps).peers.entries.reverse).1 ∧
    ∀ a ∈ (((NewRegistry "self:8080").run smallClusterOps).GetPeerAddrs
        ((NewRegistry "self:8080").run smallClusterOps).peers.entries.reverse).1,
      a ≠ "self:8080" :=
  ⟨by decide, by decide,
    C11_peerAddrs_exclude_self "self:8080" smallClusterOps _ (by decide)
      (List.reverse_perm _)⟩

/-- C12: once `selfID` is a key of `peers`, each of `HandleJoinRequest`,
`HandleHeartbeat`, `syncPeers` and `removeExpiredPeers` keeps it, with any
arguments and at any time; the sweep leaves the self entry as it is however
old its `LastSeen`; hence after the self-add of `Start` the key is present in
every later state. -/
theorem C12_self_stays_present (r : Registry) (peerID : String)
    (newPeers : List Peer) (now startTime : Int)
    (visitJoin visit : List (Σ _ : String, Peer)) (ops : List RegistryOp)
    (hself : r.selfID ∈ r.peers) :
    r.selfID ∈ (r.HandleJoinRequest peerID now visitJoin).2.peers ∧
    r.selfID ∈ (r.HandleHeartbeat peerID now).peers ∧
    r.selfID ∈ (r.syncPeers newPeers now).peers ∧
    r.selfID ∈ (r.removeExpiredPeers now visit).peers ∧
    (r.removeExpiredPeers now visit).peers.lookup r.selfID =
      r.peers.lookup r.selfID ∧
    r.selfID ∈ (r.run ops).peers ∧
    (NewRegistry r.selfID).selfID ∈
      (((NewRegistry r.selfID).step (.selfAdd startTime)).run ops).peers := by
  have hj := step_keeps_self r (.join peerID now) hself
  have hh := step_keeps_self r (.heartbeat peerID now) hself
  have hs := step_keeps_self r (.sync newPeers now) hself
  have hr := run_keeps_self r ops hself
  rw [step_selfID] at hj hh hs
  rw [run_selfID] at hr
  have he : r.selfID ∈ (r.removeExpiredPeers now visit).peers := by
    rw [← AList.lookup_isSome, removeExpiredPeers_self, AList.lookup_isSome]
    exact hself
  refine ⟨hj, hh, hs, he, removeExpiredPeers_self r now visit, hr, ?_⟩
  have h0 : ((NewRegistry r.selfID).step (.selfAdd startTime)).selfID ∈
      ((NewRegistry r.selfID).step (.selfAdd startTime)).peers := by
    rw [← AList.lookup_isSome]
    show ((AList.insert r.selfID _ _).lookup r.selfID).isSome = true
    rw [AList.lookup_insert]; rfl
  have h1 := run_keeps_self _ ops h0
  rw [run_selfID] at h1
  exact h1

/-- C12 at a concrete input: the three-node registry, whose self entry was
last seen at time 0, swept and updated at 100 seconds. -/
theorem C12_self_stays_present_witness :
    threeNodeRegistry.selfID ∈ (threeNodeRegistry.HandleJoinRequest "p3:8083"
      100000000000 []).2.peers ∧
    threeNodeRegistry.selfID ∈
      (threeNodeRegistry.HandleHeartbeat "p3:8083" 100000000000).peers ∧
    threeNodeRegistry.selfID ∈ (threeNodeRegistry.syncPeers
      [{ ID := "self:8080", Addr := "elsewhere:1", LastSeen := 0 }]
      100000000000).peers ∧
    threeNodeRegistry.selfID ∈ (threeNodeRegistry.removeExpiredPeers
      100000000000 threeNodeRegistry.peers.entries).peers ∧
    (threeNodeRegistry.removeExpiredPeers 100000000000
      threeNodeRegistry.peers.entries).peers.lookup threeNodeRegistry.selfID =
      threeNodeRegistry.peers.lookup threeNodeRegistry.selfID ∧
    threeNodeRegistry.selfID ∈ (threeNodeRegistry.run smallClusterOps).peers ∧
    (NewRegistry threeNodeRegistry.selfID).selfID ∈
      (((NewRegistry threeNodeRegistry.selfID).step (.selfAdd 5)).run
        smallClusterOps).peers :=
  C12_self_stays_present threeNodeRegistry "p3:8083"
    [{ ID := "self:8080", Addr := "elsewhere:1", LastSeen := 0 }]
    100000000000 5 [] threeNodeRegistry.peers.entries smallClusterOps
    (by decide)

/-- C13: after `removeExpiredPeers` at the instant `now`, every remaining
entry under a key other than `selfID` has `now - LastSeen` at most 15
seconds. -/
theorem C13_survivors_are_fresh (r : Registry) (now : Int)
    (visit : List (Σ _ : String, Peer)) (hvisit : visit.Perm r.peers.entries) :
    ∀ id p, (r.removeExpiredPeers now visit).peers.lookup id = some p →
      id ≠ (r.removeExpiredPeers now visit).selfID →
      now - p.LastSeen ≤ 15 * 1000000000 := by
  intro id p h hne
  rw [removeExpiredPeers_lookup r now visit hvisit] at h
  cases hl : r.peers.lookup id with
  | none => rw [hl] at h; cases h
  | some q =>
    rw [hl] at h
    simp only [Option.filter] at h
    split at h
    · rename_i hk
      cases h
      rcases of_decide_eq_true hk with hk | hk
      · exact absurd hk hne
      · exact hk
    · cases h

/-- C13 at a concrete input: the expiry scenario at `now` = 100 seconds, the
map visited in reverse order. -/
theorem C13_survivors_are_fresh_witness :
    (expiryScenario 100000000000 0).peers.entries.reverse.Perm
      (expiryScenario 100000000000 0).peers.entries ∧
    ((expiryScenario 100000000000 0).removeExpiredPeers 100000000000
        (expiryScenario 100000000000 0).peers.entries.reverse).peers.lookup
          "active-peer:8082" =
      some { ID := "active-peer:8082", Addr := "active-peer:8082",
             LastSeen := 100000000000 } ∧
    ∀ id p, ((expiryScenario 100000000000 0).removeExpiredPeers 100000000000
        (expiryScenario 100000000000 0).peers.entries.reverse).peers.lookup id =
          some p →
      id ≠ ((expiryScenario 100000000000 0).removeExpiredPeers 100000000000
        (expiryScenario 100000000000 0).peers.entries.reverse).selfID →
      100000000000 - p.LastSeen ≤ 15 * 1000000000 :=
  ⟨List.reverse_perm _, by decide,
    C13_survivors_are_fresh (expiryScenario 100000000000 0) 100000000000
      (expiryScenario 100000000000 0).peers.entries.reverse (List.reverse_perm _)⟩

/-- C14: `removeExpiredPeers` at the instant `now` keeps, with the same
fields, every entry that is under `selfID` or has `now - LastSeen` at most 15
seconds (an age of exactly 15 seconds included), removes every entry under
another key that is older, and adds nothing; on the registry with `self`,
`active` (seen at `now`) and `stale` (seen 20 seconds before) the keys left
are exactly `self` and `active`. -/
theorem C14_sweep_removes_only_expired (r : Registry) (now scenarioNow selfSeen : Int)
    (visit scenarioVisit : List (Σ _ : String, Peer))
    (hvisit : visit.Perm r.peers.entries)
    (hscenario : scenarioVisit.Perm (expiryScenario scenarioNow selfSeen).peers.entries) :
    (∀ id p, r.peers.lookup id = some p →
      (id = r.selfID ∨ now - p.LastSeen ≤ 15 * 1000000000) →
      (r.removeExpiredPeers now visit).peers.lookup id = some p) ∧
    (∀ id p, r.peers.lookup id = some p → id ≠ r.selfID →
      p.LastSeen = now - 15 * 1000000000 →
      (r.removeExpiredPeers now visit).peers.lookup id = some p) ∧
    (∀ id p, r.peers.lookup id = some p → id ≠ r.selfID →
      now - p.LastSeen > 15 * 1000000000 →
      (r.removeExpiredPeers now visit).peers.lookup id = none) ∧
    (∀ id, r.peers.lookup id = none →
      (r.removeExpiredPeers now visit).peers.lookup id = none) ∧
    (r.removeExpiredPeers now visit).selfID = r.selfID ∧
    (∀ id, id ∈ ((expiryScenario scenarioNow selfSeen).removeExpiredPeers
        scenarioNow scenarioVisit).peers ↔
      id = "self:8080" ∨ id = "active-peer:8082") := by
  have hT : peerExpiryTimeout = 15 * 1000000000 := rfl
  have hkeep : ∀ id p, r.peers.lookup id = some p →
      (id = r.selfID ∨ now - p.LastSeen ≤ 15 * 1000000000) →
      (r.removeExpiredPeers now visit).peers.lookup id = some p := by
    intro id p hl hk
    rw [removeExpiredPeers_lookup r now visit hvisit, hl]
    simp only [Option.filter]
    rw [hT, if_pos (decide_eq_true hk)]
  refine ⟨hkeep, ?_, ?_, ?_, rfl, ?_⟩
  · intro id p hl _ hage
    exact hkeep id p hl (Or.inr (by rw [hage]; omega))
  · intro id p hl hne hage
    rw [removeExpiredPeers_lookup r now visit hvisit, hl]
    simp only [Option.filter]
    rw [hT, if_neg]
    intro hk
    rcases of_decide_eq_true hk with hk | hk
    · exact hne hk
    · exact absurd hage (not_lt.mpr hk)
  · intro id hl
    rw [removeExpiredPeers_lookup r now visit hvisit, hl]
    rfl
  · intro id
    rw [← AList.lookup_isSome,
      removeExpiredPeers_lookup _ scenarioNow scenarioVisit hscenario]
    have hsid : (expiryScenario scenarioNow selfSeen).selfID = "self:8080" := rfl
    rw [hsid]
    show ((((((∅ : AList (fun _ : String => Peer)).insert "self:8080" _).insert
      "expired-peer:8081" _).insert "active-peer:8082" _).lookup id).filter _).isSome
        = true ↔ _
    by_cases h1 : id = "active-peer:8082"
    · subst h1
      rw [AList.lookup_insert]
      simp [Option.filter, peerExpiryTimeout]
    · rw [AList.lookup_insert_ne h1]
      by_cases h2 : id = "expired-peer:8081"
      · subst h2
        rw [AList.lookup_insert]
        simp [Option.filter, peerExpiryTimeout]
      · rw [AList.lookup_insert_ne h2]
        by_cases h3 : id = "self:8080"
        · subst h3
          rw [AList.lookup_insert]
          simp [Option.filter]
        · rw [AList.lookup_insert_ne h3, AList.lookup_empty]
          simp [Option.filter, h1, h3]

/-- C14 at a concrete input: the three-node registry swept when `p1` is 2 ns
over the timeout and `p2` is exactly 15 seconds old, and the expiry scenario
at 100 seconds. -/
theorem C14_sweep_removes_only_expired_witness :
    (∀ id p, threeNodeRegistry.peers.lookup id = some p →
      (id = threeNodeRegistry.selfID ∨ 15000000007 - p.LastSeen ≤ 15 * 1000000000) →
      (threeNodeRegistry.removeExpiredPeers 15000000007
        threeNodeRegistry.peers.entries).peers.lookup id = some p) ∧
    (∀ id p, threeNodeRegistry.peers.lookup id = some p →
      id ≠ threeNodeRegistry.selfID →
      p.LastSeen = 15000000007 - 15 * 1000000000 →
      (threeNodeRegistry.removeExpiredPeers 15000000007
        threeNodeRegistry.peers.entries).peers.lookup id = some p) ∧
    (∀ id p, threeNodeRegistry.peers.lookup id = some p →
      id ≠ threeNodeRegistry.selfID →
      15000000007 - p.LastSeen > 15 * 1000000000 →
      (threeNodeRegistry.removeExpiredPeers 15000000007
        threeNodeRegistry.peers.entries).peers.lookup id = none) ∧
    (∀ id, threeNodeRegistry.peers.lookup id = none →
      (threeNodeRegistry.removeExpiredPeers 15000000007
        threeNodeRegistry.peers.entries).peers.lookup id = none) ∧
    (threeNodeRegistry.removeExpiredPeers 15000000007
      threeNodeRegistry.peers.entries).selfID = threeNodeRegistry.selfID ∧
    (∀ id, id ∈ ((expiryScenario 100000000000 0).removeExpiredPeers
        100000000000 (expiryScenario 100000000000 0).peers.entries).peers ↔
      id = "self:8080" ∨ id = "active-peer:8082") :=
  C14_sweep_removes_only_expired threeNodeRegistry 15000000007 100000000000 0
    threeNodeRegistry.peers.entries (expiryScenario 100000000000 0).peers.entries
    (List.Perm.refl _) (List.Perm.refl _)

/-- The loop of `HandleJoinRequest` appends the visited values in order. -/
theorem joinLoop_eq (visit : List (Σ _ : String, Peer)) (acc : List Peer) :
    visit.foldl (fun peerList e => peerList ++ [e.2]) acc =
      acc ++ visit.map (fun e => e.2) := by
  induction visit generalizing acc with
  | nil => simp
  | cons e es ih => rw [List.foldl_cons, ih]; simp

/-- When every key is the `ID` of its peer, the ids of the values are the
keys. -/
theorem ids_eq_keys (m : AList (fun _ : String => Peer))
    (h : ∀ id q, m.lookup id = some q → q.ID = id) :
    m.entries.map (fun e => e.2.ID) = m.keys := by
  rw [AList.keys, List.keys]
  apply List.map_congr_left
  intro e he
  exact h e.1 e.2 (AList.mem_lookup_iff.mpr he)

/-- C15: `HandleJoinRequest(p)` records `p` with `LastSeen = now` and returns
a permutation of the values of `peers` after that update: one element per key,
`p` among them, self among them whenever self was present, every entry under
another key as before; the ids of the list are pairwise distinct and are the
keys (in a state whose keys are the ids of their peers, as every writer leaves
it); for a registry holding only self and `p ≠ self` the list has length 2
with both ids. -/
theorem C15_join_returns_peer_list (r : Registry) (p : String) (now : Int)
    (visit : List (Σ _ : String, Peer))
    (hvisit : visit.Perm (r.HandleJoinRequest p now visit).2.peers.entries) :
    (r.HandleJoinRequest p now visit).2.peers.lookup p =
      some { ID := p, Addr := p, LastSeen := now } ∧
    (r.HandleJoinRequest p now visit).1.Perm
      ((r.HandleJoinRequest p now visit).2.peers.entries.map (fun e => e.2)) ∧
    (r.HandleJoinRequest p now visit).1.length =
      (r.HandleJoinRequest p now visit).2.peers.keys.length ∧
    ({ ID := p, Addr := p, LastSeen := now } : Peer) ∈
      (r.HandleJoinRequest p now visit).1 ∧
    (∀ x, x ∈ (r.HandleJoinRequest p now visit).1 ↔
      ∃ id, (r.HandleJoinRequest p now visit).2.peers.lookup id = some x) ∧
    (∀ q, r.peers.lookup r.selfID = some q →
      ∃ q1 ∈ (r.HandleJoinRequest p now visit).1,
        (r.HandleJoinRequest p now visit).2.peers.lookup r.selfID = some q1 ∧
        (r.selfID ≠ p → q1 = q)) ∧
    (∀ id, id ≠ p →
      (r.HandleJoinRequest p now visit).2.peers.lookup id = r.peers.lookup id) ∧
    ((∀ id q, r.peers.lookup id = some q → q.ID = id) →
      ((r.HandleJoinRequest p now visit).1.map Peer.ID).Nodup ∧
      ((r.HandleJoinRequest p now visit).1.map Peer.ID).Perm
        (r.HandleJoinRequest p now visit).2.peers.keys) ∧
    (∀ selfID ops, r = (NewRegistry selfID).run ops →
      ((r.HandleJoinRequest p now visit).1.map Peer.ID).Nodup ∧
      ((r.HandleJoinRequest p now visit).1.map Peer.ID).Perm
        (r.HandleJoinRequest p now visit).2.peers.keys) ∧
    (∀ sp, r.peers.entries = [⟨r.selfID, sp⟩] → sp.ID = r.selfID →
      p ≠ r.selfID →
      (r.HandleJoinRequest p now visit).1.length = 2 ∧
      r.selfID ∈ (r.HandleJoinRequest p now visit).1.map Peer.ID ∧
      p ∈ (r.HandleJoinRequest p now visit).1.map Peer.ID) := by
  have hlist : (r.HandleJoinRequest p now visit).1 = visit.map (fun e => e.2) := by
    show visit.foldl _ [] = _
    rw [joinLoop_eq, List.nil_append]
  have hperm : (r.HandleJoinRequest p now visit).1.Perm
      ((r.HandleJoinRequest p now visit).2.peers.entries.map (fun e => e.2)) := by
    rw [hlist]; exact hvisit.map _
  have hmem : ∀ x, x ∈ (r.HandleJoinRequest p now visit).1 ↔
      ∃ id, (r.HandleJoinRequest p now visit).2.peers.lookup id = some x := by
    intro x
    rw [hperm.mem_iff, List.mem_map]
    constructor
    · rintro ⟨e, he, rfl⟩
      exact ⟨e.1, AList.mem_lookup_iff.mpr he⟩
    · rintro ⟨id, hl⟩
      exact ⟨⟨id, x⟩, AList.mem_lookup_iff.mp hl, rfl⟩
  have hp : (r.HandleJoinRequest p now visit).2.peers.lookup p =
      some { ID := p, Addr := p, LastSeen := now } := by
    rw [handleJoinRequest_lookup, if_pos rfl]
  have hother : ∀ id, id ≠ p →
      (r.HandleJoinRequest p now visit).2.peers.lookup id = r.peers.lookup id := by
    intro id hid
    rw [handleJoinRequest_lookup, if_neg hid]
  have hlen : (r.HandleJoinRequest p now visit).1.length =
      (r.HandleJoinRequest p now visit).2.peers.keys.length := by
    rw [hperm.length_eq, List.length_map, AList.keys, List.keys, List.length_map]
  have hdistinct : (∀ id q, r.peers.lookup id = some q → q.ID = id) →
      ((r.HandleJoinRequest p now visit).1.map Peer.ID).Nodup ∧
      ((r.HandleJoinRequest p now visit).1.map Peer.ID).Perm
        (r.HandleJoinRequest p now visit).2.peers.keys := by
    intro hkeys
    have hkeys2 : ∀ id q, (r.HandleJoinRequest p now visit).2.peers.lookup id =
        some q → q.ID = id := by
      intro id q hl
      rw [handleJoinRequest_lookup] at hl
      by_cases hid : id = p
      · rw [if_pos hid] at hl; cases hl; exact hid.symm
      · rw [if_neg hid] at hl; exact hkeys id q hl
    have hids : ((r.HandleJoinRequest p now visit).1.map Peer.ID).Perm
        (r.HandleJoinRequest p now visit).2.peers.keys := by
      rw [← ids_eq_keys _ hkeys2]
      have := hperm.map Peer.ID
      simpa [List.map_map, Function.comp_def] using this
    exact ⟨(hids.nodup_iff).mpr (AList.keys_nodup _), hids⟩
  refine ⟨hp, hperm, hlen, (hmem _).mpr ⟨p, hp⟩, hmem, ?_, hother, hdistinct,
    ?_, ?_⟩
  · intro q hq
    by_cases hsp : r.selfID = p
    · refine ⟨_, (hmem _).mpr ⟨p, hp⟩, ?_, fun h => absurd hsp h⟩
      rw [hsp]; exact hp
    · refine ⟨q, (hmem _).mpr ⟨r.selfID, ?_⟩, ?_, fun _ => rfl⟩
      · rw [hother _ hsp]; exact hq
      · rw [hother _ hsp]; exact hq
  · intro selfID ops hr
    apply hdistinct
    rw [hr]
    exact run_keys_are_ids (NewRegistry selfID) ops
      (by intro id q h; simp [NewRegistry, AList.lookup_empty] at h)
  · intro sp hentries hspid hne
    have hself : r.peers.lookup r.selfID = some sp := by
      apply AList.mem_lookup_iff.mpr
      rw [hentries]; exact List.mem_singleton.mpr rfl
    have hnotin : p ∉ r.peers := by
      rw [AList.mem_keys, AList.keys, hentries]
      simpa [List.keys] using hne
    refine ⟨?_, ?_, ?_⟩
    · rw [hlen]
      show (r.peers.insert p _).keys.length = 2
      rw [AList.keys_insert, List.erase_of_not_mem (AList.mem_keys.not.mp hnotin),
        AList.keys, hentries]
      rfl
    · rw [List.mem_map]
      refine ⟨sp, (hmem _).mpr ⟨r.selfID, ?_⟩, hspid⟩
      rw [hother _ (fun h => hne h.symm)]; exact hself
    · rw [List.mem_map]
      exact ⟨_, (hmem _).mpr ⟨p, hp⟩, rfl⟩

/-- C15 at a concrete input: the join test, `new-peer:8081` joining the
registry that holds only `self:8080`, the map visited self first. -/
theorem C15_join_returns_peer_list_witness :
    (selfOnlyRegistry.HandleJoinRequest "new-peer:8081" 1 joinVisit).2.peers.lookup
        "new-peer:8081" =
      some { ID := "new-peer:8081", Addr := "new-peer:8081", LastSeen := 1 } ∧
    (selfOnlyRegistry.HandleJoinRequest "new-peer:8081" 1 joinVisit).1.Perm
      ((selfOnlyRegistry.HandleJoinRequest "new-peer:8081" 1
        joinVisit).2.peers.entries.map (fun e => e.2)) ∧
    (selfOnlyRegistry.HandleJoinRequest "new-peer:8081" 1 joinVisit).1.length =
      (selfOnlyRegistry.HandleJoinRequest "new-peer:8081" 1
        joinVisit).2.peers.keys.length ∧
    ({ ID := "new-peer:8081", Addr := "new-peer:8081", LastSeen := 1 } : Peer) ∈
      (selfOnlyRegistry.HandleJoinRequest "new-peer:8081" 1 joinVisit).1 ∧
    (∀ x, x ∈ (selfOnlyRegistry.HandleJoinRequest "new-peer:8081" 1 joinVisit).1 ↔
      ∃ id, (selfOnlyRegistry.HandleJoinRequest "new-peer:8081" 1
        joinVisit).2.peers.lookup id = some x) ∧
    (∀ q, selfOnlyRegistry.peers.lookup selfOnlyRegistry.selfID = some q →
      ∃ q1 ∈ (selfOnlyRegistry.HandleJoinRequest "new-peer:8081" 1 joinVisit).1,
        (selfOnlyRegistry.HandleJoinRequest "new-peer:8081" 1
          joinVisit).2.peers.lookup selfOnlyRegistry.selfID = some q1 ∧
        (selfOnlyRegistry.selfID ≠ "new-peer:8081" → q1 = q)) ∧
    (∀ id, id ≠ "new-peer:8081" →
      (selfOnlyRegistry.HandleJoinRequest "new-peer:8081" 1
        joinVisit).2.peers.lookup id = selfOnlyRegistry.peers.lookup id) ∧
    ((∀ id q, selfOnlyRegistry.peers.lookup id = some q → q.ID = id) →
      ((selfOnlyRegistry.HandleJoinRequest "new-peer:8081" 1
        joinVisit).1.map Peer.ID).Nodup ∧
      ((selfOnlyRegistry.HandleJoinRequest "new-peer:8081" 1
        joinVisit).1.map Peer.ID).Perm
        (selfOnlyRegistry.HandleJoinRequest "new-peer:8081" 1
          joinVisit).2.peers.keys) ∧
    (∀ selfID ops, selfOnlyRegistry = (NewRegistry selfID).run ops →
      ((selfOnlyRegistry.HandleJoinRequest "new-peer:8081" 1
        joinVisit).1.map Peer.ID).Nodup ∧
      ((selfOnlyRegistry.HandleJoinRequest "new-peer:8081" 1
        joinVisit).1.map Peer.ID).Perm
        (selfOnlyRegistry.HandleJoinRequest "new-peer:8081" 1
          joinVisit).2.peers.keys) ∧
    (∀ sp, selfOnlyRegistry.peers.entries = [⟨selfOnlyRegistry.selfID, sp⟩] →
      sp.ID = selfOnlyRegistry.selfID →
      "new-peer:8081" ≠ selfOnlyRegistry.selfID →
      (selfOnlyRegistry.HandleJoinRequest "new-peer:8081" 1 joinVisit).1.length = 2 ∧
      selfOnlyRegistry.selfID ∈
        (selfOnlyRegistry.HandleJoinRequest "new-peer:8081" 1 joinVisit).1.map Peer.ID ∧
      "new-peer:8081" ∈
        (selfOnlyRegistry.HandleJoinRequest "new-peer:8081" 1
          joinVisit).1.map Peer.ID) :=
  C15_join_returns_peer_list selfOnlyRegistry "new-peer:8081" 1 joinVisit
    (by decide)

/-- C16: `HandleHeartbeat(p)` at time `now` is total; an unknown `p` gets the
entry `ID = Addr = p`, `LastSeen = now`; a known `p` keeps its `ID` and `Addr`
and gets `LastSeen = now`; every entry under another key, and `selfID`, are
unchanged. -/
theorem C16_heartbeat_frame (r : Registry) (p : String) (now : Int) :
    (r.peers.lookup p = none →
      (r.HandleHeartbeat p now).peers.lookup p =
        some { ID := p, Addr := p, LastSeen := now }) ∧
    (∀ q, r.peers.lookup p = some q →
      (r.HandleHeartbeat p now).peers.lookup p =
        some { ID := q.ID, Addr := q.Addr, LastSeen := now }) ∧
    p ∈ (r.HandleHeartbeat p now).peers ∧
    (∀ id, id ≠ p →
      (r.HandleHeartbeat p now).peers.lookup id = r.peers.lookup id) ∧
    (r.HandleHeartbeat p now).selfID = r.selfID := by
  refine ⟨?_, ?_, ?_, ?_, step_selfID r (.heartbeat p now)⟩
  · intro hl
    rw [handleHeartbeat_lookup, if_pos rfl, hl]
  · intro q hl
    rw [handleHeartbeat_lookup, if_pos rfl, hl]
  · rw [← AList.lookup_isSome, handleHeartbeat_lookup, if_pos rfl]; rfl
  · intro id hid
    rw [handleHeartbeat_lookup, if_neg hid]

/-- The state after `HandleHeartbeat`, in one expression. -/
theorem handleHeartbeat_eq (r : Registry) (x : String) (t : Int) :
    r.HandleHeartbeat x t =
      { selfID := r.selfID,
        peers := r.peers.insert x
          (match r.peers.lookup x with
            | some peer => { peer with LastSeen := t }
            | none => { ID := x, Addr := x, LastSeen := t }) } := by
  unfold Registry.HandleHeartbeat
  cases r.peers.lookup x <;> rfl

/-- A later heartbeat of the same peer overwrites the earlier one. -/
theorem handleHeartbeat_twice (r : Registry) (x : String) (t1 t2 : Int) :
    (r.HandleHeartbeat x t1).HandleHeartbeat x t2 = r.HandleHeartbeat x t2 := by
  rw [handleHeartbeat_eq (r.HandleHeartbeat x t1) x t2, handleHeartbeat_lookup,
    if_pos rfl, handleHeartbeat_eq r x t1, handleHeartbeat_eq r x t2]
  simp only [AList.insert_insert]
  cases r.peers.lookup x <;> rfl

/-- A run of heartbeats of one peer equals the last of them alone. -/
theorem heartbeats_eq_last (r : Registry) (x : String) (ts : List Int)
    (hne : ts ≠ []) :
    r.heartbeats x ts = r.HandleHeartbeat x (ts.getLast hne) := by
  induction ts generalizing r with
  | nil => exact absurd rfl hne
  | cons t rest ih =>
    cases rest with
    | nil => rfl
    | cons t2 rest2 =>
      have hne2 : t2 :: rest2 ≠ [] := List.cons_ne_nil _ _
      show (r.HandleHeartbeat x t).heartbeats x (t2 :: rest2) = _
      rw [ih (r.HandleHeartbeat x t) hne2, handleHeartbeat_twice,
        List.getLast_cons hne2]

/-- C17: for a non-empty list of non-decreasing times, `HandleHeartbeat(x)`
performed at each of them in order leaves the same Registry state as one
`HandleHeartbeat(x)` at the last time, and the resulting `LastSeen` of `x` is
the last time, which is at least the first. -/
theorem C17_heartbeats_collapse (r : Registry) (x : String) (ts : List Int)
    (hne : ts ≠ []) (hmono : ts.Chain' (fun a b => a ≤ b)) :
    r.heartbeats x ts = r.HandleHeartbeat x (ts.getLast hne) ∧
    ∃ q, (r.heartbeats x ts).peers.lookup x = some q ∧
      q.LastSeen = ts.getLast hne ∧ ts.head hne ≤ q.LastSeen := by
  have heq := heartbeats_eq_last r x ts hne
  have hle : ts.head hne ≤ ts.getLast hne := by
    have hpw : ts.Pairwise (fun a b => a ≤ b) := List.chain'_iff_pairwise.mp hmono
    cases ts with
    | nil => exact absurd rfl hne
    | cons t rest =>
      cases rest with
      | nil => exact le_refl _
      | cons t2 rest2 =>
        have hmem : (t :: t2 :: rest2).getLast hne ∈ t2 :: rest2 := by
          rw [List.getLast_cons (List.cons_ne_nil _ _)]
          exact List.getLast_mem _
        exact List.rel_of_pairwise_cons hpw hmem
  refine ⟨heq, ?_⟩
  rw [heq, handleHeartbeat_lookup, if_pos rfl]
  cases hl : r.peers.lookup x with
  | none => exact ⟨_, rfl, rfl, hle⟩
  | some q0 => exact ⟨_, rfl, rfl, hle⟩

/-- C17 at a concrete input: three heartbeats of `p1:8081` (known) at times
10, 10 and 12 on the three-node registry. -/
theorem C17_heartbeats_collapse_witness :
    threeNodeRegistry.heartbeats "p1:8081" [10, 10, 12] =
      threeNodeRegistry.HandleHeartbeat "p1:8081"
        (([10, 10, 12] : List Int).getLast (by decide)) ∧
    ∃ q, (threeNodeRegistry.heartbeats "p1:8081" [10, 10, 12]).peers.lookup
        "p1:8081" = some q ∧
      q.LastSeen = ([10, 10, 12] : List Int).getLast (by decide) ∧
      ([10, 10, 12] : List Int).head (by decide) ≤ q.LastSeen :=
  C17_heartbeats_collapse threeNodeRegistry "p1:8081" [10, 10, 12] (by decide)
    (by simp)

/-- C18: `syncPeers(L)` at time `now` only adds. Every entry present before
is unchanged (same `LastSeen`, same `Addr`); every id of `L` that was absent
is present afterwards with `LastSeen = now`, the id as `ID` and the `Addr` of
a peer of `L` with that id; no key outside the old keys and the ids of `L`
is added. -/
theorem C18_sync_only_adds (r : Registry) (L : List Peer) (now : Int) :
    (∀ id q, r.peers.lookup id = some q →
      (r.syncPeers L now).peers.lookup id = some q) ∧
    (∀ q ∈ L, r.peers.lookup q.ID = none →
      ∃ q1, (r.syncPeers L now).peers.lookup q.ID = some q1 ∧
        q1.LastSeen = now ∧ q1.ID = q.ID ∧
        ∃ q0 ∈ L, q0.ID = q.ID ∧ q1.Addr = q0.Addr) ∧
    (∀ id, id ∈ (r.syncPeers L now).peers →
      id ∈ r.peers ∨ id ∈ L.map Peer.ID) ∧
    (r.syncPeers L now).selfID = r.selfID := by
  refine ⟨?_, ?_, ?_, rfl⟩
  · intro id q hl
    rw [syncPeers_lookup, hl]
  · intro q hq hl
    rw [syncPeers_lookup, hl]
    cases hf : L.find? (fun x => decide (x.ID = q.ID)) with
    | none =>
      have := List.find?_eq_none.mp hf q hq
      simp at this
    | some q0 =>
      have hq0 : q0.ID = q.ID := by
        have := List.find?_some hf
        simpa using this
      exact ⟨_, rfl, rfl, hq0, q0, List.mem_of_find?_eq_some hf, hq0, rfl⟩
  · intro id hid
    rw [← AList.lookup_isSome, syncPeers_lookup] at hid
    cases hl : r.peers.lookup id with
    | some q =>
      left
      rw [← AList.lookup_isSome, hl]; rfl
    | none =>
      right
      rw [hl] at hid
      cases hf : L.find? (fun x => decide (x.ID = id)) with
      | none => rw [hf] at hid; cases hid
      | some q0 =>
        have hq0 : q0.ID = id := by
          have := List.find?_some hf
          simpa using this
        exact List.mem_map.mpr ⟨q0, List.mem_of_find?_eq_some hf, hq0⟩

/-- The Posts of `announce` do not depend on the outcomes of the Posts. -/
theorem announce_posts (client : Nat → JoinPost → Option (List Peer))
    (clock : Nat → Int) (initialPeers : List String) (k : Nat) (r : Registry) :
    (r.announce client clock initialPeers k).1 =
      (initialPeers.filter (fun a => decide (a ≠ r.selfID))).map
        (fun a => { url := "http://" ++ a ++ "/cluster/join", id := r.selfID }) := by
  induction initialPeers generalizing k r with
  | nil => rfl
  | cons a rest ih =>
    by_cases ha : a = r.selfID
    · simp only [Registry.announce, if_pos ha]
      rw [ih]
      simp [ha]
    · simp only [Registry.announce, if_neg ha]
      cases hc : client k { url := "http://" ++ a ++ "/cluster/join", id := r.selfID } with
      | none =>
        simp only
        rw [ih]
        simp [ha]
      | some responsePeers =>
        simp only
        rw [ih]
        simp [ha]
        rfl

/-- When every Post fails, `announce` leaves the registry as it was. -/
theorem announce_all_fail (clock : Nat → Int) (initialPeers : List String)
    (k : Nat) (r : Registry) :
    (r.announce (fun _ _ => none) clock initialPeers k).2 = r := by
  induction initialPeers generalizing k with
  | nil => rfl
  | cons a rest ih =>
    by_cases ha : a = r.selfID
    · simp only [Registry.announce, if_pos ha]; exact ih k
    · simp only [Registry.announce, if_neg ha]; exact ih (k + 1)

/-- C19: for every list `initialPeers` and every pattern of Post outcomes,
`announce` makes exactly one join Post per element of `initialPeers` other
than `selfID`, in list order, to `"http://" + addr + "/cluster/join"` with the
body id `selfID`, and none for `selfID`; after a failed Post it goes on with
the next address from an unchanged registry, and when every Post fails the
registry is unchanged. -/
theorem C19_announce_posts_once_each (r : Registry) (initialPeers : List String)
    (client : Nat → JoinPost → Option (List Peer)) (clock : Nat → Int)
    (k : Nat) :
    (r.announce client clock initialPeers k).1 =
      (initialPeers.filter (fun a => decide (a ≠ r.selfID))).map
        (fun a => { url := "http://" ++ a ++ "/cluster/join", id := r.selfID }) ∧
    (∀ addr rest,
      r.announce client clock (r.selfID :: rest) k =
        r.announce client clock rest k ∧
      (addr ≠ r.selfID →
        client k { url := "http://" ++ addr ++ "/cluster/join", id := r.selfID } = none →
        r.announce client clock (addr :: rest) k =
          ({ url := "http://" ++ addr ++ "/cluster/join", id := r.selfID } ::
              (r.announce client clock rest (k + 1)).1,
            (r.announce client clock rest (k + 1)).2))) ∧
    (r.announce (fun _ _ => none) clock initialPeers k).2 = r ∧
    (r.announce client clock initialPeers k).2.selfID = r.selfID := by
  refine ⟨announce_posts client clock initialPeers k r, ?_,
    announce_all_fail clock initialPeers k r, ?_⟩
  · intro addr rest
    refine ⟨?_, ?_⟩
    · simp [Registry.announce]
    · intro hne hfail
      simp only [Registry.announce, if_neg hne, hfail]
  · induction initialPeers generalizing k r with
    | nil => rfl
    | cons a rest ih =>
      by_cases ha : a = r.selfID
      · simp only [Registry.announce, if_pos ha]; exact ih r k
      · simp only [Registry.announce, if_neg ha]
        cases hc : client k { url := "http://" ++ a ++ "/cluster/join", id := r.selfID } with
        | none => exact ih r (k + 1)
        | some responsePeers => exact ih (r.syncPeers responsePeers (clock k)) (k + 1)

/-- The value of `body["id"]` is empty exactly when the key is missing or
bound to the empty string. -/
theorem bodyID_eq_empty (body : AList (fun _ : String => String)) :
    bodyID body = "" ↔ body.lookup "id" = none ∨ body.lookup "id" = some "" := by
  unfold bodyID
  cases h : body.lookup "id" with
  | none => simp
  | some v => simp

/-- C20: on `/cluster/join` and `/cluster/heartbeat`, a body that fails to
decode, or whose `id` is missing or empty, is answered with 400 and the server
state (registry included) is unchanged; a body with a non-empty `id` is
answered with 200 and the registry is the one left by `HandleJoinRequest`
(whose list is the payload) or `HandleHeartbeat` called with that id. -/
theorem C20_cluster_handlers_validate_id (s : Server)
    (decoded : Option (AList (fun _ : String => String))) (now : Int)
    (visit : List (Σ _ : String, Peer)) :
    ((decoded = none ∨ ∃ body, decoded = some body ∧
        (body.lookup "id" = none ∨ body.lookup "id" = some "")) →
      (s.handleClusterJoin decoded now visit).1.status = 400 ∧
      (s.handleClusterJoin decoded now visit).1.peerList = none ∧
      (s.handleClusterJoin decoded now visit).2 = s ∧
      (s.handleClusterHeartbeat decoded now).1.status = 400 ∧
      (s.handleClusterHeartbeat decoded now).2 = s) ∧
    (∀ body id, decoded = some body → body.lookup "id" = some id → id ≠ "" →
      (s.handleClusterJoin decoded now visit).1.status = 200 ∧
      (s.handleClusterJoin decoded now visit).1.peerList =
        some (s.registry.HandleJoinRequest id now visit).1 ∧
      (s.handleClusterJoin decoded now visit).2.registry =
        (s.registry.HandleJoinRequest id now visit).2 ∧
      (s.handleClusterJoin decoded now visit).2.counter = s.counter ∧
      (s.handleClusterHeartbeat decoded now).1.status = 200 ∧
      (s.handleClusterHeartbeat decoded now).2.registry =
        s.registry.HandleHeartbeat id now ∧
      (s.handleClusterHeartbeat decoded now).2.counter = s.counter) := by
  constructor
  · rintro (rfl | ⟨body, rfl, hid⟩)
    · exact ⟨rfl, rfl, rfl, rfl, rfl⟩
    · have hb : bodyID body = "" := (bodyID_eq_empty body).mpr hid
      simp only [Server.handleClusterJoin, Server.handleClusterHeartbeat, hb,
        if_true]
      refine ⟨?_, ?_, ?_, ?_, ?_⟩ <;> first | rfl | trivial
  · rintro body id rfl hl hne
    have hb : bodyID body = id := by unfold bodyID; rw [hl]; rfl
    simp only [Server.handleClusterJoin, Server.handleClusterHeartbeat, hb,
      if_neg hne]
    refine ⟨?_, ?_, ?_, ?_, ?_, ?_, ?_⟩ <;> first | rfl | trivial

/-! ## Claims about the inter-node client -/

/-- C21: when the client receives a response (the body was encoded, the
request was built and the transport returned a response), `Post` returns the
error `received non-OK status code: <code>` whenever the status code is not
200, without decoding a response body; with status 200 and a nil
`responseBody` it returns no error. -/
theorem C21_post_rejects_non_ok (marshal : Option (Except String String))
    (resp : HTTPResponse) (responseBody : Option (String → Except String Unit))
    (hmarshal : ∀ e, marshal ≠ some (Except.error e)) :
    (resp.StatusCode ≠ 200 →
      Client.Post marshal (Except.ok ()) (Except.ok resp) responseBody =
        { err := some ("received non-OK status code: " ++ toString resp.StatusCode),
          decoded := false }) ∧
    (resp.StatusCode = 200 →
      Client.Post marshal (Except.ok ()) (Except.ok resp) none =
        { err := none, decoded := false }) := by
  have hpost : ∀ rb, Client.Post marshal (Except.ok ()) (Except.ok resp) rb =
      if resp.StatusCode ≠ StatusOK then
        { err := some ("received non-OK status code: " ++ toString resp.StatusCode),
          decoded := false }
      else
        match rb with
        | none => { err := none, decoded := false }
        | some decode =>
          match decode resp.Body with
          | .error e =>
            { err := some ("failed to decode response body: " ++ e), decoded := true }
          | .ok _ => { err := none, decoded := true } := by
    intro rb
    unfold Client.Post
    split
    · rename_i e
      exact absurd rfl (hmarshal e)
    · rfl
  have hok : StatusOK = 200 := rfl
  constructor
  · intro hne
    rw [hpost, hok, if_pos hne]
  · intro heq
    rw [hpost, hok, if_neg (not_not.mpr heq)]

/-- C21 at a concrete input: a 500 response to a Post with nil body and nil
`responseBody`, and a 200 response to the same Post. -/
theorem C21_post_rejects_non_ok_witness :
    (Client.Post none (Except.ok ()) (Except.ok { StatusCode := 500, Body := "" })
        none =
      { err := some "received non-OK status code: 500", decoded := false }) ∧
    (Client.Post none (Except.ok ()) (Except.ok { StatusCode := 200, Body := "" })
        none =
      { err := none, decoded := false }) :=
  ⟨(C21_post_rejects_non_ok none { StatusCode := 500, Body := "" } none
      (by intro e h; cases h)).1 (by decide),
   (C21_post_rejects_non_ok none { StatusCode := 200, Body := "" } none
      (by intro e h; cases h)).2 rfl⟩

/-! ## Claims about identity, keys and the propagate handler -/

/-- The list returned by `HandleJoinRequest` holds exactly the values bound
in the map after the update. -/
theorem handleJoinRequest_mem (r : Registry) (p : String) (now : Int)
    (visit : List (Σ _ : String, Peer))
    (hvisit : visit.Perm (r.HandleJoinRequest p now visit).2.peers.entries)
    (x : Peer) :
    x ∈ (r.HandleJoinRequest p now visit).1 ↔
      ∃ id, (r.HandleJoinRequest p now visit).2.peers.lookup id = some x := by
  have hlist : (r.HandleJoinRequest p now visit).1 = visit.map (fun e => e.2) := by
    show visit.foldl _ [] = _
    rw [joinLoop_eq, List.nil_append]
  rw [hlist, List.mem_map]
  constructor
  · rintro ⟨e, he, rfl⟩
    exact ⟨e.1, AList.mem_lookup_iff.mpr (hvisit.mem_iff.mp he)⟩
  · rintro ⟨id, hl⟩
    exact ⟨⟨id, x⟩, hvisit.mem_iff.mpr (AList.mem_lookup_iff.mp hl), rfl⟩

/-- When every key is the `ID` of its peer, the ids of the list returned by
`HandleJoinRequest` are a permutation of the keys after the update. -/
theorem handleJoinRequest_ids (r : Registry) (p : String) (now : Int)
    (visit : List (Σ _ : String, Peer))
    (hvisit : visit.Perm (r.HandleJoinRequest p now visit).2.peers.entries)
    (hkeys : ∀ id q, r.peers.lookup id = some q → q.ID = id) :
    ((r.HandleJoinRequest p now visit).1.map Peer.ID).Perm
      (r.HandleJoinRequest p now visit).2.peers.keys := by
  have hlist : (r.HandleJoinRequest p now visit).1 = visit.map (fun e => e.2) := by
    show visit.foldl _ [] = _
    rw [joinLoop_eq, List.nil_append]
  have hkeys2 : ∀ id q, (r.HandleJoinRequest p now visit).2.peers.lookup id =
      some q → q.ID = id := by
    intro id q hl
    rw [handleJoinRequest_lookup] at hl
    by_cases hid : id = p
    · rw [if_pos hid] at hl; cases hl; exact hid.symm
    · rw [if_neg hid] at hl; exact hkeys id q hl
  rw [← ids_eq_keys _ hkeys2, hlist]
  have := (hvisit.map (fun e => e.2)).map Peer.ID
  simpa [List.map_map, Function.comp_def] using this

/-- One mutation keeps "every peer has `ID = Addr`", when a merged list does. -/
theorem step_id_eq_addr (r : Registry) (op : RegistryOp) (hop : op.IDsAreAddrs)
    (hinv : ∀ id p, r.peers.lookup id = some p → p.ID = p.Addr) :
    ∀ id p, (r.step op).peers.lookup id = some p → p.ID = p.Addr := by
  intro id p h
  rcases step_lookup_cases r op id p h with ⟨q, hq, hI, hA⟩ | ⟨hI, hA⟩ |
    ⟨newPeers, now, rfl, q, hq, _, hI, hA⟩
  · rw [hI, hA]; exact hinv id q hq
  · rw [hI, hA]
  · rw [hI, hA]; exact hop q hq

theorem run_id_eq_addr (r : Registry) (ops : List RegistryOp)
    (hops : ∀ op ∈ ops, op.IDsAreAddrs)
    (hinv : ∀ id p, r.peers.lookup id = some p → p.ID = p.Addr) :
    ∀ id p, (r.run ops).peers.lookup id = some p → p.ID = p.Addr := by
  induction ops generalizing r with
  | nil => exact hinv
  | cons op ops ih =>
    rw [run_cons]
    exact ih _ (fun o ho => hops o (List.mem_cons_of_mem _ ho))
      (step_id_eq_addr r op (hops op (List.mem_cons_self _ _)) hinv)

/-- C24, as stated, fails: after the self-add and the merge of a peer list
that names the node `n2:8081` under the address `10.0.0.2:8081`, the entry of
`n2:8081` has an `ID` different from its `Addr`. -/
theorem C24_counterexample :
    ¬ ∀ id p, mergedSplitIdentity.peers.lookup id = some p → p.ID = p.Addr := by
  intro h
  have h2 := h "n2:8081" { ID := "n2:8081", Addr := "10.0.0.2:8081", LastSeen := 1 }
    (by decide)
  revert h2
  decide

/-- C24, amended: in every state reached from `NewRegistry` by the self-add,
`HandleJoinRequest`, `HandleHeartbeat`, `removeExpiredPeers` and `syncPeers`
with peer lists whose peers have `ID` equal to `Addr`, every entry of `peers`
has `ID` equal to `Addr`; and the list `HandleJoinRequest` returns from such a
state is again such a peer list. -/
theorem C24_id_eq_addr (selfID : String) (ops : List RegistryOp)
    (peerID : String) (now : Int) (visit : List (Σ _ : String, Peer))
    (hops : ∀ op ∈ ops, op.IDsAreAddrs)
    (hvisit : visit.Perm
      (((NewRegistry selfID).run ops).HandleJoinRequest peerID now visit).2.peers.entries) :
    (∀ id p, ((NewRegistry selfID).run ops).peers.lookup id = some p →
      p.ID = p.Addr) ∧
    (∀ p ∈ (((NewRegistry selfID).run ops).HandleJoinRequest peerID now visit).1,
      p.ID = p.Addr) := by
  have hinv := run_id_eq_addr (NewRegistry selfID) ops hops
    (by intro id p h; simp [NewRegistry, AList.lookup_empty] at h)
  refine ⟨hinv, ?_⟩
  intro p hp
  obtain ⟨id, hl⟩ := (handleJoinRequest_mem _ peerID now visit hvisit p).mp hp
  exact step_id_eq_addr _ (.join peerID now) trivial hinv id p hl

/-- C24 (amended) at a concrete input: the small cluster, and the response to
a join of `p4:8084` at time 4 with the map visited in reverse order. -/
theorem C24_id_eq_addr_witness :
    (∀ op ∈ smallClusterOps, op.IDsAreAddrs) ∧
    ((NewRegistry "self:8080").run smallClusterOps).peers.lookup "p2:8082" =
      some { ID := "p2:8082", Addr := "p2:8082", LastSeen := 2 } ∧
    (∀ id p, ((NewRegistry "self:8080").run smallClusterOps).peers.lookup id =
      some p → p.ID = p.Addr) ∧
    (∀ p ∈ (((NewRegistry "self:8080").run smallClusterOps).HandleJoinRequest
        "p4:8084" 4
        (((NewRegistry "self:8080").run smallClusterOps).HandleJoinRequest
          "p4:8084" 4 []).2.peers.entries.reverse).1,
      p.ID = p.Addr) :=
  ⟨by decide, by decide,
    C24_id_eq_addr "self:8080" smallClusterOps "p4:8084" 4 _ (by decide)
      (List.reverse_perm _)⟩

theorem calls_nil (r : Registry) : r.calls [] = r := rfl

theorem calls_cons (r : Registry) (c : RegistryCall) (cs : List RegistryCall) :
    r.calls (c :: cs) = (r.call c).calls cs := rfl

/-- Every writing call keeps "every key is the `ID` of its peer". -/
theorem calls_keys_are_ids (r : Registry) (cs : List RegistryCall)
    (hinv : ∀ id q, r.peers.lookup id = some q → q.ID = id) :
    ∀ id q, (r.calls cs).peers.lookup id = some q → q.ID = id := by
  induction cs generalizing r with
  | nil => exact hinv
  | cons c cs ih =>
    rw [calls_cons]
    apply ih
    cases c with
    | addPeer p =>
      intro id q hl
      have hl2 : (r.peers.insert p.ID p).lookup id = some q := hl
      by_cases hid : id = p.ID
      · subst hid
        rw [AList.lookup_insert] at hl2
        cases hl2
        rfl
      · rw [AList.lookup_insert_ne hid] at hl2
        exact hinv id q hl2
    | mutate op => exact step_keys_are_ids r op hinv

/-- C25: in every state reached from `NewRegistry` by `addPeer`,
`HandleJoinRequest`, `HandleHeartbeat`, `syncPeers` and `removeExpiredPeers`,
each key of `peers` is the `ID` of the peer stored under it; so the ids of a
`HandleJoinRequest` response are pairwise distinct and are exactly the keys
of the map after the join. -/
theorem C25_keys_are_ids (selfID : String) (cs : List RegistryCall)
    (peerID : String) (now : Int) (visit : List (Σ _ : String, Peer))
    (hvisit : visit.Perm
      (((NewRegistry selfID).calls cs).HandleJoinRequest peerID now visit).2.peers.entries) :
    (∀ id q, ((NewRegistry selfID).calls cs).peers.lookup id = some q →
      q.ID = id) ∧
    ((((NewRegistry selfID).calls cs).HandleJoinRequest peerID now visit).1.map
      Peer.ID).Nodup ∧
    ((((NewRegistry selfID).calls cs).HandleJoinRequest peerID now visit).1.map
      Peer.ID).Perm
      (((NewRegistry selfID).calls cs).HandleJoinRequest peerID now visit).2.peers.keys ∧
    (∀ id, id ∈ (((NewRegistry selfID).calls cs).HandleJoinRequest peerID now
        visit).1.map Peer.ID ↔
      id ∈ (((NewRegistry selfID).calls cs).HandleJoinRequest peerID now
        visit).2.peers) := by
  have hinv := calls_keys_are_ids (NewRegistry selfID) cs
    (by intro id q h; simp [NewRegistry, AList.lookup_empty] at h)
  have hperm := handleJoinRequest_ids _ peerID now visit hvisit hinv
  refine ⟨hinv, hperm.nodup_iff.mpr (AList.keys_nodup _), hperm, ?_⟩
  intro id
  rw [hperm.mem_iff, AList.mem_keys]

/-- C25 at a concrete input: writing calls that include an `addPeer` of a peer
whose address differs from its id, then a join of `d:4` at time 5 with the map
visited in reverse order. -/
theorem C25_keys_are_ids_witness :
    ((NewRegistry "self:8080").calls mixedCalls).peers.lookup "a:1" =
      some { ID := "a:1", Addr := "10.0.0.1:1", LastSeen := 0 } ∧
    (∀ id q, ((NewRegistry "self:8080").calls mixedCalls).peers.lookup id = some q →
      q.ID = id) ∧
    ((((NewRegistry "self:8080").calls mixedCalls).HandleJoinRequest "d:4" 5
      (((NewRegistry "self:8080").calls mixedCalls).HandleJoinRequest "d:4" 5
        []).2.peers.entries.reverse).1.map Peer.ID).Nodup ∧
    ((((NewRegistry "self:8080").calls mixedCalls).HandleJoinRequest "d:4" 5
      (((NewRegistry "self:8080").calls mixedCalls).HandleJoinRequest "d:4" 5
        []).2.peers.entries.reverse).1.map Peer.ID).Perm
      (((NewRegistry "self:8080").calls mixedCalls).HandleJoinRequest "d:4" 5
        (((NewRegistry "self:8080").calls mixedCalls).HandleJoinRequest "d:4" 5
          []).2.peers.entries.reverse).2.peers.keys ∧
    (∀ id, id ∈ (((NewRegistry "self:8080").calls mixedCalls).HandleJoinRequest
        "d:4" 5
        (((NewRegistry "self:8080").calls mixedCalls).HandleJoinRequest "d:4" 5
          []).2.peers.entries.reverse).1.map Peer.ID ↔
      id ∈ (((NewRegistry "self:8080").calls mixedCalls).HandleJoinRequest "d:4" 5
        (((NewRegistry "self:8080").calls mixedCalls).HandleJoinRequest "d:4" 5
          []).2.peers.entries.reverse).2.peers) :=
  ⟨by decide,
    C25_keys_are_ids "self:8080" mixedCalls "d:4" 5 _ (List.reverse_perm _)⟩

/-- C26: the `/counter/propagate` handler accepts a blank id. On a Counter
that has not seen the empty id, a decoded increment with `ID = ""` is answered
with 200 and raises `Value()` by one; after that, and after any further
increments, every blank-id increment is answered with 200 and leaves the
Counter unchanged. -/
theorem C26_propagate_accepts_blank_id (s : Server) (nodeID laterNodeID : String)
    (between : List Increment) (hfresh : "" ∉ s.counter.seenIncrements) :
    (s.handleCounterPropagate (some { ID := "", NodeID := nodeID })).1.status = 200 ∧
    (s.handleCounterPropagate (some { ID := "", NodeID := nodeID })).2.counter.Value =
      s.counter.Value + 1 ∧
    (s.handleCounterPropagate (some { ID := "", NodeID := nodeID })).2.registry =
      s.registry ∧
    (({ registry := s.registry,
        counter := ((s.handleCounterPropagate
          (some { ID := "", NodeID := nodeID })).2.counter.applyAll between) } :
        Server).handleCounterPropagate
      (some { ID := "", NodeID := laterNodeID })).1.status = 200 ∧
    (({ registry := s.registry,
        counter := ((s.handleCounterPropagate
          (some { ID := "", NodeID := nodeID })).2.counter.applyAll between) } :
        Server).handleCounterPropagate
      (some { ID := "", NodeID := laterNodeID })).2.counter =
      (s.handleCounterPropagate
        (some { ID := "", NodeID := nodeID })).2.counter.applyAll between := by
  have h1 : (s.handleCounterPropagate (some { ID := "", NodeID := nodeID })).2.counter =
      (s.counter.ApplyIncrement { ID := "", NodeID := nodeID }).2 := rfl
  have hseen : "" ∈ ((s.handleCounterPropagate
      (some { ID := "", NodeID := nodeID })).2.counter.applyAll
        between).seenIncrements := by
    rw [applyAll_seen, h1, applyIncrement_fresh s.counter _ hfresh]
    simp
  refine ⟨rfl, ?_, rfl, rfl, ?_⟩
  · rw [h1, applyIncrement_fresh s.counter _ hfresh]
    rfl
  · show (Counter.ApplyIncrement _ { ID := "", NodeID := laterNodeID }).2 = _
    rw [applyIncrement_seen _ { ID := "", NodeID := laterNodeID } hseen]

/-- C26 at a concrete input: a server whose Counter has seen `inc-1`, a body
without `id` from `peer1:8081`, one more increment, and a second body without
`id` from `peer2:8082`. -/
theorem C26_propagate_accepts_blank_id_witness :
    "" ∉ seenOneServer.counter.seenIncrements ∧
    (seenOneServer.handleCounterPropagate
      (some { ID := "", NodeID := "peer1:8081" })).2.counter.Value = 2 ∧
    ((Server.mk seenOneServer.registry
        ((seenOneServer.handleCounterPropagate
          (some { ID := "", NodeID := "peer1:8081" })).2.counter.applyAll
            [{ ID := "inc-2", NodeID := "peer2:8082" }])).handleCounterPropagate
      (some { ID := "", NodeID := "peer2:8082" })).2.counter.Value = 3 :=
  ⟨by decide,
    (C26_propagate_accepts_blank_id seenOneServer "peer1:8081" "peer2:8082"
      [{ ID := "inc-2", NodeID := "peer2:8082" }] (by decide)).2.1,
    by
      rw [(C26_propagate_accepts_blank_id seenOneServer "peer1:8081" "peer2:8082"
        [{ ID := "inc-2", NodeID := "peer2:8082" }] (by decide)).2.2.2.2]
      decide⟩

/-! ## Helper lemmas for concurrent callers -/

theorem concRun_nil (incs : List Increment) (s : ConcState) : s.run incs [] = s := rfl

theorem concRun_cons (incs : List Increment) (s : ConcState) (tid : Nat)
    (rest : List Nat) : s.run incs (tid :: rest) = (s.step incs tid).run incs rest :=
  rfl

theorem concRun_append (incs : List Increment) (s : ConcState) (xs ys : List Nat) :
    s.run incs (xs ++ ys) = (s.run incs xs).run incs ys := by
  simp [ConcState.run, List.foldl_append]

/-- With pairwise distinct ids, an id names one call. -/
theorem call_of_id (incs : List Increment) (hnd : (incs.map Increment.ID).Nodup)
    (i j : Nat) (a b : Increment) (hi : incs[i]? = some a) (hj : incs[j]? = some b)
    (hid : a.ID = b.ID) : i = j := by
  have hlt : i < (incs.map Increment.ID).length := by
    rw [List.length_map]
    exact (List.getElem?_eq_some_iff.mp hi).1
  apply List.getElem?_inj hlt hnd
  rw [List.getElem?_map, List.getElem?_map, hi, hj]
  simp [hid]

/-- The state of a fresh Counter before any call has started satisfies the
invariant. -/
theorem init_inv (incs : List Increment) (selfID : String) :
    ConcInv incs (ConcState.init (NewCounter selfID)) where
  outside := fun _ _ => rfl
  holder := fun i h => by simp [ConcState.init, PC.critical] at h
  held := fun i h => by simp [ConcState.init] at h
  seenIff := fun id => by
    simp [ConcState.init, NewCounter, PC.wrote]
  accepted := fun i => by simp [ConcState.init]
  loadedValue := fun i tmp h => by simp [ConcState.init] at h
  valueFree := fun _ => by simp [ConcState.init, NewCounter]
  valueStored := fun i h => by simp [ConcState.init] at h

/-- A call that holds the mutex moves between two positions inside the
critical section that neither write `seen` nor lie between the store and the
map write: the invariant is kept. -/
theorem inv_move (incs : List Increment) (s : ConcState) (tid : Nat) (q : PC)
    (hI : ConcInv incs s) (hlt : tid < incs.length)
    (hp : (s.pc tid).critical = true) (hpw : (s.pc tid).wrote = false)
    (hps : s.pc tid ≠ PC.stored)
    (hq : q.critical = true) (hqw : q.wrote = false) (hqs : q ≠ PC.stored)
    (hqa : q ≠ PC.dup) (hql : ∀ tmp, q = PC.loaded tmp → tmp = s.value) :
    ConcInv incs { s with pc := Function.update s.pc tid q } := by
  have lockEq : s.lock = some tid := hI.holder tid hp
  refine ⟨?_, ?_, ?_, ?_, ?_, ?_, ?_, ?_⟩
  · intro i hi
    have hne : i ≠ tid := by omega
    simp only [Function.update_noteq hne]
    exact hI.outside i hi
  · intro i hi
    by_cases hit : i = tid
    · rw [hit]; exact lockEq
    · simp only [Function.update_noteq hit] at hi
      exact hI.holder i hi
  · intro i hi
    have hit : i = tid := by
      have h2 : s.lock = some i := hi
      rw [lockEq] at h2
      exact (Option.some.inj h2).symm
    subst hit
    simp only [Function.update_same]
    exact hq
  · intro id
    rw [hI.seenIff id]
    constructor
    · rintro ⟨i, inci, h1, h2, h3⟩
      refine ⟨i, inci, h1, h2, ?_⟩
      by_cases hit : i = tid
      · subst hit; rw [hpw] at h3; cases h3
      · simp only [Function.update_noteq hit]; exact h3
    · rintro ⟨i, inci, h1, h2, h3⟩
      refine ⟨i, inci, h1, h2, ?_⟩
      by_cases hit : i = tid
      · subst hit
        simp only [Function.update_same] at h3
        rw [hqw] at h3; cases h3
      · simp only [Function.update_noteq hit] at h3; exact h3
  · intro i
    by_cases hit : i = tid
    · subst hit
      simp only [Function.update_same]
      refine ⟨hqa, ?_⟩
      intro h
      rw [h] at hq
      cases hq
    · simp only [Function.update_noteq hit]; exact hI.accepted i
  · intro i tmp hi
    by_cases hit : i = tid
    · subst hit
      simp only [Function.update_same] at hi
      exact hql tmp hi
    · simp only [Function.update_noteq hit] at hi
      exact hI.loadedValue i tmp hi
  · intro hall
    apply hI.valueFree
    intro i hi
    by_cases hit : i = tid
    · subst hit; exact hps hi
    · have := hall i
      simp only [Function.update_noteq hit] at this
      exact this hi
  · intro i hi
    by_cases hit : i = tid
    · subst hit
      simp only [Function.update_same] at hi
      exact absurd hi hqs
    · simp only [Function.update_noteq hit] at hi
      exact hI.valueStored i hi

/-- Every step keeps the invariant. -/
theorem step_inv (incs : List Increment) (hnd : (incs.map Increment.ID).Nodup)
    (s : ConcState) (tid : Nat) (hI : ConcInv incs s) :
    ConcInv incs (s.step incs tid) := by
  unfold ConcState.step
  cases hinc : incs[tid]? with
  | none => exact hI
  | some inc =>
    have hlt : tid < incs.length := (List.getElem?_eq_some_iff.mp hinc).1
    have notWritten : (s.pc tid).wrote = false → inc.ID ∉ s.seen := by
      intro hw hmem
      obtain ⟨j, incj, hj, hid, hwj⟩ := (hI.seenIff _).mp hmem
      have hjt := call_of_id incs hnd j tid incj inc hj hinc hid
      subst hjt
      rw [hw] at hwj
      cases hwj
    have onlyMe : (s.pc tid).critical = true →
        ∀ i, (s.pc i).critical = true → i = tid := by
      intro hc i hi
      have h1 := hI.holder i hi
      have h2 := hI.holder tid hc
      rw [h1] at h2
      exact Option.some.inj h2
    simp only
    cases hpc : s.pc tid with
    | start =>
      simp only
      cases hlock : s.lock with
      | some j => simp only; exact hI
      | none =>
        simp only
        have noCrit : ∀ i, (s.pc i).critical = false := by
          intro i
          by_contra hc
          have := hI.holder i (by simpa using hc)
          rw [hlock] at this
          cases this
        refine ⟨?_, ?_, ?_, ?_, ?_, ?_, ?_, ?_⟩
        · intro i hi
          have hne : i ≠ tid := by omega
          simp only [Function.update_noteq hne]
          exact hI.outside i hi
        · intro i hi
          by_cases hit : i = tid
          · rw [hit]
          · simp only [Function.update_noteq hit] at hi
            rw [noCrit i] at hi
            cases hi
        · intro i hi
          simp only [Option.some.injEq] at hi
          subst hi
          simp [PC.critical]
        · intro id
          rw [hI.seenIff id]
          constructor
          · rintro ⟨i, inci, h1, h2, h3⟩
            refine ⟨i, inci, h1, h2, ?_⟩
            by_cases hit : i = tid
            · subst hit; rw [hpc] at h3; cases h3
            · simp only [Function.update_noteq hit]; exact h3
          · rintro ⟨i, inci, h1, h2, h3⟩
            refine ⟨i, inci, h1, h2, ?_⟩
            by_cases hit : i = tid
            · subst hit; simp [PC.wrote] at h3
            · simp only [Function.update_noteq hit] at h3; exact h3
        · intro i
          by_cases hit : i = tid
          · subst hit; simp
          · simp only [Function.update_noteq hit]; exact hI.accepted i
        · intro i tmp hi
          by_cases hit : i = tid
          · subst hit; simp at hi
          · simp only [Function.update_noteq hit] at hi
            exact hI.loadedValue i tmp hi
        · intro _
          apply hI.valueFree
          intro i hi
          have := noCrit i
          rw [hi] at this
          cases this
        · intro i hi
          by_cases hit : i = tid
          · subst hit; simp at hi
          · simp only [Function.update_noteq hit] at hi
            exact hI.valueStored i hi
    | locked =>
      simp only
      have hnot : inc.ID ∉ s.seen := notWritten (by rw [hpc]; rfl)
      rw [if_neg hnot]
      exact inv_move incs s tid PC.fresh hI hlt (by rw [hpc]; rfl) (by rw [hpc]; rfl)
        (by rw [hpc]; intro h; cases h) rfl rfl (by intro h; cases h)
        (by intro h; cases h) (by intro tmp h; cases h)
    | fresh =>
      simp only
      exact inv_move incs s tid (PC.loaded s.value) hI hlt (by rw [hpc]; rfl)
        (by rw [hpc]; rfl) (by rw [hpc]; intro h; cases h) rfl rfl
        (by intro h; cases h) (by intro h; cases h)
        (by intro tmp h; cases h; rfl)
    | loaded tmp =>
      simp only
      have hc : (s.pc tid).critical = true := by rw [hpc]; rfl
      have lockEq : s.lock = some tid := hI.holder tid hc
      have htmp : tmp = s.value := hI.loadedValue tid tmp hpc
      have hfree : ∀ i, s.pc i ≠ PC.stored := by
        intro i hi
        have hci : (s.pc i).critical = true := by rw [hi]; rfl
        have := onlyMe hc i hci
        subst this
        rw [hpc] at hi
        cases hi
      have hval : s.value = (s.seen.card : Int) := hI.valueFree hfree
      refine ⟨?_, ?_, ?_, ?_, ?_, ?_, ?_, ?_⟩
      · intro i hi
        have hne : i ≠ tid := by omega
        simp only [Function.update_noteq hne]
        exact hI.outside i hi
      · intro i hi
        by_cases hit : i = tid
        · rw [hit]; exact lockEq
        · simp only [Function.update_noteq hit] at hi
          exact hI.holder i hi
      · intro i hi
        have hit : i = tid := by
          have h2 : s.lock = some i := hi
          rw [lockEq] at h2
          exact (Option.some.inj h2).symm
        subst hit
        simp [PC.critical]
      · intro id
        rw [hI.seenIff id]
        constructor
        · rintro ⟨i, inci, h1, h2, h3⟩
          refine ⟨i, inci, h1, h2, ?_⟩
          by_cases hit : i = tid
          · subst hit; rw [hpc] at h3; cases h3
          · simp only [Function.update_noteq hit]; exact h3
        · rintro ⟨i, inci, h1, h2, h3⟩
          refine ⟨i, inci, h1, h2, ?_⟩
          by_cases hit : i = tid
          · subst hit; simp [PC.wrote] at h3
          · simp only [Function.update_noteq hit] at h3; exact h3
      · intro i
        by_cases hit : i = tid
        · subst hit; simp
        · simp only [Function.update_noteq hit]; exact hI.accepted i
      · intro i t hi
        by_cases hit : i = tid
        · subst hit; simp at hi
        · simp only [Function.update_noteq hit] at hi
          have hci : (s.pc i).critical = true := by rw [hi]; rfl
          exact absurd (onlyMe hc i hci) hit
      · intro hall
        have := hall tid
        simp at this
      · intro i _
        show tmp + 1 = (s.seen.card : Int) + 1
        rw [htmp, hval]
    | stored =>
      simp only
      have hc : (s.pc tid).critical = true := by rw [hpc]; rfl
      have lockEq : s.lock = some tid := hI.holder tid hc
      have hnot : inc.ID ∉ s.seen := notWritten (by rw [hpc]; rfl)
      have hval : s.value = (s.seen.card : Int) + 1 := hI.valueStored tid hpc
      refine ⟨?_, ?_, ?_, ?_, ?_, ?_, ?_, ?_⟩
      · intro i hi
        have hne : i ≠ tid := by omega
        simp only [Function.update_noteq hne]
        exact hI.outside i hi
      · intro i hi
        by_cases hit : i = tid
        · rw [hit]; exact lockEq
        · simp only [Function.update_noteq hit] at hi
          exact hI.holder i hi
      · intro i hi
        have hit : i = tid := by
          have h2 : s.lock = some i := hi
          rw [lockEq] at h2
          exact (Option.some.inj h2).symm
        subst hit
        simp [PC.critical]
      · intro id
        simp only [Finset.mem_insert]
        rw [hI.seenIff id]
        constructor
        · rintro (h | ⟨i, inci, h1, h2, h3⟩)
          · exact ⟨tid, inc, hinc, h.symm, by simp [PC.wrote]⟩
          · refine ⟨i, inci, h1, h2, ?_⟩
            by_cases hit : i = tid
            · subst hit; rw [hpc] at h3; cases h3
            · simp only [Function.update_noteq hit]; exact h3
        · rintro ⟨i, inci, h1, h2, h3⟩
          by_cases hit : i = tid
          · subst hit
            rw [hinc] at h1
            cases h1
            exact Or.inl h2.symm
          · simp only [Function.update_noteq hit] at h3
            exact Or.inr ⟨i, inci, h1, h2, h3⟩
      · intro i
        by_cases hit : i = tid
        · subst hit; simp
        · simp only [Function.update_noteq hit]; exact hI.accepted i
      · intro i t hi
        by_cases hit : i = tid
        · subst hit; simp at hi
        · simp only [Function.update_noteq hit] at hi
          exact hI.loadedValue i t hi
      · intro _
        show s.value = ((insert inc.ID s.seen).card : Int)
        rw [Finset.card_insert_of_not_mem hnot, hval]
        push_cast
        rfl
      · intro i hi
        by_cases hit : i = tid
        · subst hit; simp at hi
        · simp only [Function.update_noteq hit] at hi
          have hci : (s.pc i).critical = true := by rw [hi]; rfl
          exact absurd (onlyMe hc i hci) hit
    | inserted =>
      simp only
      have hc : (s.pc tid).critical = true := by rw [hpc]; rfl
      have noOther : ∀ i, i ≠ tid → (s.pc i).critical = false := by
        intro i hit
        by_contra h
        exact hit (onlyMe hc i (by simpa using h))
      refine ⟨?_, ?_, ?_, ?_, ?_, ?_, ?_, ?_⟩
      · intro i hi
        have hne : i ≠ tid := by omega
        simp only [Function.update_noteq hne]
        exact hI.outside i hi
      · intro i hi
        by_cases hit : i = tid
        · subst hit; simp [PC.critical] at hi
        · simp only [Function.update_noteq hit] at hi
          rw [noOther i hit] at hi
          cases hi
      · intro i hi
        cases hi
      · intro id
        rw [hI.seenIff id]
        constructor
        · rintro ⟨i, inci, h1, h2, h3⟩
          refine ⟨i, inci, h1, h2, ?_⟩
          by_cases hit : i = tid
          · subst hit; simp [PC.wrote]
          · simp only [Function.update_noteq hit]; exact h3
        · rintro ⟨i, inci, h1, h2, h3⟩
          refine ⟨i, inci, h1, h2, ?_⟩
          by_cases hit : i = tid
          · subst hit; rw [hpc]; rfl
          · simp only [Function.update_noteq hit] at h3; exact h3
      · intro i
        by_cases hit : i = tid
        · subst hit; simp
        · simp only [Function.update_noteq hit]; exact hI.accepted i
      · intro i t hi
        by_cases hit : i = tid
        · subst hit; simp at hi
        · simp only [Function.update_noteq hit] at hi
          exact hI.loadedValue i t hi
      · intro _
        apply hI.valueFree
        intro i hi
        by_cases hit : i = tid
        · subst hit; rw [hpc] at hi; cases hi
        · have := noOther i hit
          rw [hi] at this
          cases this
      · intro i hi
        by_cases hit : i = tid
        · subst hit; simp at hi
        · simp only [Function.update_noteq hit] at hi
          have := noOther i hit
          rw [hi] at this
          cases this
    | dup => exact absurd hpc (hI.accepted tid).1
    | done ret => simp only; exact hI

theorem run_inv (incs : List Increment) (hnd : (incs.map Increment.ID).Nodup)
    (s : ConcState) (schedule : List Nat) (hI : ConcInv incs s) :
    ConcInv incs (s.run incs schedule) := by
  induction schedule generalizing s with
  | nil => exact hI
  | cons tid rest ih =>
    rw [concRun_cons]
    exact ih _ (step_inv incs hnd s tid hI)

/-- While the mutex is free, `value` is the size of `seen`. -/
theorem inv_observe (incs : List Increment) (s : ConcState) (hI : ConcInv incs s)
    (v : Int) (hobs : s.observe = some v) : v = (s.seen.card : Int) := by
  unfold ConcState.observe at hobs
  cases hlock : s.lock with
  | some j => rw [hlock] at hobs; cases hobs
  | none =>
    rw [hlock] at hobs
    cases hobs
    apply hI.valueFree
    intro i hi
    have := hI.holder i (by rw [hi]; rfl)
    rw [hlock] at this
    cases this

/-- When every call has returned: the mutex is free, every call returned
true, and `seen` holds exactly the ids of the calls. -/
theorem inv_allReturned (incs : List Increment)
    (s : ConcState) (hI : ConcInv incs s) (hall : s.allReturned incs) :
    s.lock = none ∧ (∀ i, i < incs.length → s.pc i = PC.done true) ∧
    s.seen = (incs.map Increment.ID).toFinset := by
  have hdone : ∀ i, i < incs.length → s.pc i = PC.done true := by
    intro i hi
    obtain ⟨ret, hret⟩ := hall i hi
    cases ret with
    | true => exact hret
    | false => exact absurd hret (hI.accepted i).2
  have hnocrit : ∀ i, (s.pc i).critical = false := by
    intro i
    by_cases hi : i < incs.length
    · rw [hdone i hi]; rfl
    · rw [hI.outside i (by omega)]; rfl
  refine ⟨?_, hdone, ?_⟩
  · cases hlock : s.lock with
    | none => rfl
    | some j =>
      have := hI.held j hlock
      rw [hnocrit j] at this
      cases this
  · ext id
    rw [hI.seenIff id, List.mem_toFinset, List.mem_map]
    constructor
    · rintro ⟨i, inc, h1, h2, _⟩
      obtain ⟨hlt, heq⟩ := List.getElem?_eq_some_iff.mp h1
      exact ⟨inc, heq ▸ List.getElem_mem hlt, h2⟩
    · rintro ⟨inc, hmem, hid⟩
      obtain ⟨i, hi, hget⟩ := List.getElem_of_mem hmem
      refine ⟨i, inc, ?_, hid, ?_⟩
      · rw [List.getElem?_eq_getElem hi, hget]
      · rw [hdone i hi]; rfl

/-- States that agree on the calls `0 .. n-1` have the same steps left. -/
theorem stepsLeft_congr (s t : ConcState) (n : Nat)
    (h : ∀ i, i < n → t.pc i = s.pc i) : t.stepsLeft n = s.stepsLeft n := by
  unfold ConcState.stepsLeft
  congr 1
  apply List.map_congr_left
  intro i hi
  rw [h i (List.mem_range.mp hi)]

/-- When one call advances and the others stay, fewer steps are left. -/
theorem stepsLeft_lt (s t : ConcState) (n tid : Nat) (htid : tid < n)
    (hsame : ∀ i, i ≠ tid → t.pc i = s.pc i)
    (hdec : (t.pc tid).stepsLeft < (s.pc tid).stepsLeft) :
    t.stepsLeft n < s.stepsLeft n := by
  induction n with
  | zero => omega
  | succ n ih =>
    have hs : s.stepsLeft (n + 1) = s.stepsLeft n + (s.pc n).stepsLeft := by
      simp [ConcState.stepsLeft, List.range_succ]
    have ht : t.stepsLeft (n + 1) = t.stepsLeft n + (t.pc n).stepsLeft := by
      simp [ConcState.stepsLeft, List.range_succ]
    rw [hs, ht]
    by_cases hlast : tid = n
    · subst hlast
      have := stepsLeft_congr s t tid (fun i hi => hsame i (by omega))
      omega
    · have h1 := ih (by omega)
      have h2 : t.pc n = s.pc n := hsame n (fun h => hlast h.symm)
      rw [h2]
      omega

/-- While some call has not returned, some call can take a step that leaves
fewer steps: the calls never block one another for good. -/
theorem progress (incs : List Increment) (s : ConcState) (hI : ConcInv incs s)
    (hnot : ¬ s.allReturned incs) :
    ∃ tid, (s.step incs tid).stepsLeft incs.length < s.stepsLeft incs.length := by
  have moves : ∀ tid inc, incs[tid]? = some inc →
      (∀ i, i ≠ tid → (s.step incs tid).pc i = s.pc i) ∧
      ((s.pc tid = PC.start → s.lock = none) → (∀ ret, s.pc tid ≠ PC.done ret) →
        ((s.step incs tid).pc tid).stepsLeft < (s.pc tid).stepsLeft) := by
    intro tid inc hinc
    unfold ConcState.step
    rw [hinc]
    simp only
    cases hpc : s.pc tid with
    | start =>
      simp only
      cases hlock : s.lock with
      | some j =>
        simp only
        refine ⟨by intros; trivial, ?_⟩
        intro h
        have := h trivial
        cases this
      | none =>
        simp only
        refine ⟨fun i hi => Function.update_noteq hi _ _, ?_⟩
        intro _ _
        simp [hpc, PC.stepsLeft]
    | locked =>
      simp only
      split
      · refine ⟨fun i hi => Function.update_noteq hi _ _, ?_⟩
        intro _ _
        simp [hpc, PC.stepsLeft]
      · refine ⟨fun i hi => Function.update_noteq hi _ _, ?_⟩
        intro _ _
        simp [hpc, PC.stepsLeft]
    | fresh =>
      simp only
      refine ⟨fun i hi => Function.update_noteq hi _ _, ?_⟩
      intro _ _
      simp [hpc, PC.stepsLeft]
    | loaded tmp =>
      simp only
      refine ⟨fun i hi => Function.update_noteq hi _ _, ?_⟩
      intro _ _
      simp [hpc, PC.stepsLeft]
    | stored =>
      simp only
      refine ⟨fun i hi => Function.update_noteq hi _ _, ?_⟩
      intro _ _
      simp [hpc, PC.stepsLeft]
    | inserted =>
      simp only
      refine ⟨fun i hi => Function.update_noteq hi _ _, ?_⟩
      intro _ _
      simp [hpc, PC.stepsLeft]
    | dup =>
      simp only
      refine ⟨fun i hi => Function.update_noteq hi _ _, ?_⟩
      intro _ _
      simp [hpc, PC.stepsLeft]
    | done ret =>
      simp only
      refine ⟨by intros; trivial, ?_⟩
      intro _ h
      exact absurd rfl (h ret)
  cases hlock : s.lock with
  | some j =>
    have hcrit := hI.held j hlock
    have hj : j < incs.length := by
      by_contra h
      rw [hI.outside j (by omega)] at hcrit
      cases hcrit
    have hinc : incs[j]? = some incs[j] := List.getElem?_eq_getElem hj
    obtain ⟨hsame, hdec⟩ := moves j _ hinc
    refine ⟨j, stepsLeft_lt s _ incs.length j hj hsame (hdec ?_ ?_)⟩
    · intro h; rw [h] at hcrit; cases hcrit
    · intro ret h; rw [h] at hcrit; cases hcrit
  | none =>
    unfold ConcState.allReturned at hnot
    push_neg at hnot
    obtain ⟨i, hi, hnd⟩ := hnot
    have hinc : incs[i]? = some incs[i] := List.getElem?_eq_getElem hi
    obtain ⟨hsame, hdec⟩ := moves i _ hinc
    exact ⟨i, stepsLeft_lt s _ incs.length i hi hsame (hdec (fun _ => hlock) hnd)⟩

/-- Every state of the calls can be run on until every call has returned. -/
theorem completes (incs : List Increment) (hnd : (incs.map Increment.ID).Nodup)
    (m : Nat) (s : ConcState) (hI : ConcInv incs s)
    (hm : s.stepsLeft incs.length ≤ m) :
    ∃ rest, (s.run incs rest).allReturned incs := by
  induction m generalizing s with
  | zero =>
    by_cases hall : s.allReturned incs
    · exact ⟨[], hall⟩
    · obtain ⟨tid, hlt⟩ := progress incs s hI hall
      omega
  | succ m ih =>
    by_cases hall : s.allReturned incs
    · exact ⟨[], hall⟩
    · obtain ⟨tid, hlt⟩ := progress incs s hI hall
      obtain ⟨rest, hrest⟩ := ih (s.step incs tid) (step_inv incs hnd s tid hI)
        (by omega)
      exact ⟨tid :: rest, hrest⟩

/-! ## Claim about concurrent callers -/

/-- C22: `ApplyIncrement` is atomic for concurrent callers. For `n` calls with
pairwise distinct ids on a fresh Counter and every schedule of their steps
(1,000 calls included): whenever `Value()` can read, it reads the size of
`seen`; when every call has returned, `Value()` reads `n`, every call returned
true and the Counter holds what the calls applied one after the other leave;
and from every state the calls can run on until all have returned. -/
theorem C22_concurrent_apply_atomic (selfID : String) (incs : List Increment)
    (schedule : List Nat) (hnd : (incs.map Increment.ID).Nodup) :
    (∀ v, ((ConcState.init (NewCounter selfID)).run incs schedule).observe = some v →
      v = (((ConcState.init (NewCounter selfID)).run incs schedule).seen.card : Int)) ∧
    (((ConcState.init (NewCounter selfID)).run incs schedule).allReturned incs →
      ((ConcState.init (NewCounter selfID)).run incs schedule).observe =
        some (incs.length : Int) ∧
      (∀ i, i < incs.length →
        ((ConcState.init (NewCounter selfID)).run incs schedule).pc i = PC.done true) ∧
      ((ConcState.init (NewCounter selfID)).run incs schedule).seen =
        ((NewCounter selfID).applyAll incs).seenIncrements ∧
      ((ConcState.init (NewCounter selfID)).run incs schedule).value =
        ((NewCounter selfID).applyAll incs).Value) ∧
    (∃ rest, ((ConcState.init (NewCounter selfID)).run incs
      (schedule ++ rest)).allReturned incs) := by
  have hI := run_inv incs hnd _ schedule (init_inv incs selfID)
  refine ⟨inv_observe incs _ hI, ?_, ?_⟩
  · intro hall
    obtain ⟨hlock, hdone, hseen⟩ := inv_allReturned incs _ hI hall
    have hseq : ((NewCounter selfID).applyAll incs).seenIncrements =
        (incs.map Increment.ID).toFinset := by
      rw [applyAll_seen]
      simp [NewCounter]
    have hobs : ((ConcState.init (NewCounter selfID)).run incs schedule).observe =
        some ((ConcState.init (NewCounter selfID)).run incs schedule).value := by
      unfold ConcState.observe
      rw [hlock]
    have hval := inv_observe incs _ hI _ hobs
    have hcard : ((incs.map Increment.ID).toFinset.card : Int) = (incs.length : Int) := by
      rw [List.toFinset_card_of_nodup hnd, List.length_map]
    refine ⟨?_, hdone, ?_, ?_⟩
    · rw [hobs, hval, hseen, hcard]
    · rw [hseen, hseq]
    · show _ = ((NewCounter selfID).applyAll incs).value
      rw [hval, hseen, reachable_value_eq_card, hseq]
  · obtain ⟨rest, hrest⟩ := completes incs hnd _ _ hI (le_refl _)
    exact ⟨rest, by rw [concRun_append]; exact hrest⟩

/-- C22 at a concrete input: three calls with the ids `a`, `b`, `c` under an
interleaved schedule in which two calls wait for the mutex. -/
theorem C22_concurrent_apply_atomic_witness :
    (threeIncrements.map Increment.ID).Nodup ∧
    ((ConcState.init (NewCounter "node1")).run threeIncrements
      interleavedSchedule).allReturned threeIncrements ∧
    ((ConcState.init (NewCounter "node1")).run threeIncrements
      interleavedSchedule).observe = some 3 ∧
    ((ConcState.init (NewCounter "node1")).run threeIncrements
      (interleavedSchedule.take 6)).observe = none ∧
    ((ConcState.init (NewCounter "node1")).run threeIncrements
      interleavedSchedule).seen =
      ((NewCounter "node1").applyAll threeIncrements).seenIncrements :=
  ⟨by decide, by unfold ConcState.allReturned; decide,
    ((C22_concurrent_apply_atomic "node1" threeIncrements interleavedSchedule
      (by decide)).2.1 (by unfold ConcState.allReturned; decide)).1,
    by decide,
    ((C22_concurrent_apply_atomic "node1" threeIncrements interleavedSchedule
      (by decide)).2.1 (by unfold ConcState.allReturned; decide)).2.2.1⟩

end DistributedCounter

namespace CountryAPI

/-! ## Claims about the country service -/

/-- C23: when the cache holds a `*Country` under `strings.ToLower(name)`,
`Search(name)` returns that country with no error, its only call is the cache
lookup under the lower-cased name (no client call, no `cache.Set`) and the
cache is unchanged; and the lookup is under the lower-cased name whatever the
cache holds: with nothing under that key the client is asked, even when the
name as given is a key. -/
theorem C23_search_cache_hit (s : countryService) (ToLower : String → String)
    (name : String) (country : Option Country)
    (hhit : s.cache.Get (ToLower name) = some (.country country)) :
    (s.Search ToLower name).country = country ∧
    (s.Search ToLower name).err = none ∧
    (s.Search ToLower name).calls = [.cacheGet (ToLower name)] ∧
    (s.Search ToLower name).cache.items = s.cache.items ∧
    (∀ s2 : countryService, (s2.Search ToLower name).calls.head? =
      some (.cacheGet (ToLower name))) ∧
    (∀ s2 : countryService, s2.cache.Get (ToLower name) = none →
      (s2.Search ToLower name).calls.take 2 =
        [.cacheGet (ToLower name), .clientGet name]) := by
  refine ⟨?_, ?_, ?_, ?_, ?_, ?_⟩
  · simp only [countryService.Search, hhit]
  · simp only [countryService.Search, hhit]
  · simp only [countryService.Search, hhit]
  · simp only [countryService.Search, hhit]
  · intro s2
    simp only [countryService.Search]
    rcases hg : s2.cache.Get (ToLower name) with _ | (c | d) <;>
      rcases hc : (s2.client name).2 with _ | e <;> rfl
  · intro s2 hmiss
    simp only [countryService.Search, hmiss]
    rcases hc : (s2.client name).2 with _ | e <;> rfl

/-- C23 at a concrete input: the cache-hit test, `Search("India")` on a cache
holding the country under `india` and a client that would fail. -/
theorem C23_search_cache_hit_witness :
    indiaCached.cache.Get (asciiToLower "India") = some (.country (some india)) ∧
    (indiaCached.Search asciiToLower "India").country = some india ∧
    (indiaCached.Search asciiToLower "India").err = none ∧
    (indiaCached.Search asciiToLower "India").calls = [.cacheGet "india"] ∧
    (indiaCached.Search asciiToLower "India").cache.items = indiaCached.cache.items ∧
    (∀ s2 : countryService, (s2.Search asciiToLower "India").calls.head? =
      some (.cacheGet (asciiToLower "India"))) ∧
    (∀ s2 : countryService, s2.cache.Get (asciiToLower "India") = none →
      (s2.Search asciiToLower "India").calls.take 2 =
        [.cacheGet (asciiToLower "India"), .clientGet "India"]) :=
  ⟨by decide,
    C23_search_cache_hit indiaCached asciiToLower "India" (some india) (by decide)⟩

end CountryAPI
